import Mathlib

/-! # MIDI decoding primitives: a shallow embedding

The definitions below embed the byte-level readers of the repository
(`io.h`, `readLenghtInteger.cpp`, `endianness.cpp`, `read_header.cpp`,
`read_MThd.cpp`, `midi.h`, `Operation.cpp`).  A `std::istream` over an in-memory
buffer is a list of remaining bytes together with its fail flag; unsigned
machine integers are natural numbers reduced explicitly modulo `2^w` where a
C++ operation can leave the width.  Objects that the code fills through
`reinterpret_cast<char*>` are represented by their bytes on a little-endian
host, which is the layout the code itself relies on when it swaps byte order
after reading.

The note filter, the track decoder, the multicaster and `read_notes` are
exercised by the tests of the repository but have no definition among its
sources; they are modelled from the spec, and each such definition says so.

The last section of definitions embeds `Color::clamp` and `Color::clamped`
(`color.h`, `color.cpp`) with rational numbers for the `double` components.
-/

namespace Midi

/-! ## Streams and `read<T>` (io.h) -/

/-- A `std::istream` over an in-memory buffer: the bytes not yet extracted and
the fail flag tested by `if (in)`. -/
structure IStream where
  data : List Nat
  fail : Bool
deriving DecidableEq

/-- The template `read<T>` of io.h, with `nr_of_bytes = sizeof(T)` and `buffer`
the bytes of `*x` before the call.  `in.read(buffer, nr_of_bytes)` extracts
nothing from a stream that is already failed; otherwise it stores the bytes it
can extract at the front of the buffer and, when fewer than `nr_of_bytes` are
left, sets the fail flag.  The result is the returned flag, the bytes of `*x`
after the call and the stream after the call. -/
def read (nr_of_bytes : Nat) (s : IStream) (buffer : List Nat) : Bool × List Nat × IStream :=
  if s.fail then
    (false, buffer, s)
  else if nr_of_bytes ≤ s.data.length then
    (true, s.data.take nr_of_bytes ++ buffer.drop nr_of_bytes,
      { data := s.data.drop nr_of_bytes, fail := false })
  else
    (false, s.data ++ buffer.drop s.data.length, { data := [], fail := true })

/-- The failure of the spec's byte cursor: fewer bytes remain than the current
field needs. -/
inductive DecodeError where
  | TruncatedInput
deriving DecidableEq, Repr

deriving instance DecidableEq for Except

/-- Modelled from the spec: `read_byte` is declared in io.h but its definition is
not among the sources.  The byte cursor of the spec is sequential and fallible:
a read that finds no byte left fails with `TruncatedInput`, and otherwise it
hands back the next byte and advances by one.  The assignment text in
03-read-byte-tests.cpp says `read_byte` relies on `read`, so the byte is taken
through `read<uint8_t>`. -/
def read_byte (s : IStream) : Except DecodeError (Nat × IStream) :=
  let r := read 1 s [0]
  if r.1 then Except.ok (r.2.1.headD 0, r.2.2) else Except.error DecodeError.TruncatedInput

/-! ## Variable-length integers (readLenghtInteger.cpp) -/

/-- The `while (msb == 1)` loop of `read_variable_length_integer`.  `fuel` bounds
the number of iterations; `none` means the loop is still running when the fuel
is used up.  A failure of `read_byte` leaves the function at once. -/
def vli_loop : Nat → Nat → Nat → IStream → Option (Except DecodeError (Nat × IStream))
  | 0, msb, result, s => if msb = 1 then none else some (Except.ok (result, s))
  | fuel + 1, msb, result, s =>
    if msb = 1 then
      match read_byte s with
      | Except.error e => some (Except.error e)
      | Except.ok r =>
        let next_byte := r.1
        let msb := next_byte >>> 7
        let next_byte := next_byte &&& 0x7f
        vli_loop fuel msb (((result <<< 7) % 2 ^ 32) ||| next_byte) r.2
    else
      some (Except.ok (result, s))

/-- The function `read_variable_length_integer` of readLenghtInteger.cpp: the
returned `uint32_t` and the stream after the call, or the failure of
`read_byte` that ended it. -/
def read_variable_length_integer (fuel : Nat) (s : IStream) :
    Option (Except DecodeError (Nat × IStream)) :=
  match read_byte s with
  | Except.error e => some (Except.error e)
  | Except.ok r =>
    let byte := r.1
    let msb := byte >>> 7
    let msb_remover := 0x7f
    let result := byte &&& msb_remover
    vli_loop fuel msb result r.2

/-- The value the spec assigns to a group sequence `b1..bn`: the sum of
`(b_i AND 0x7F) * 128^(n-i)`. -/
def vli_sum : List Nat → Nat
  | [] => 0
  | b :: bs => (b &&& 0x7f) * 128 ^ bs.length + vli_sum bs

/-- The accumulator of `read_variable_length_integer` after the groups `bs` have
been shifted into `result` one by one, with the 32-bit wrap of each shift. -/
def vli_acc (result : Nat) (bs : List Nat) : Nat :=
  bs.foldl (fun r b => ((r <<< 7) % 2 ^ 32) ||| (b &&& 0x7f)) result

/-- The standard encoding of `v` as the spec words it (not code of the
repository, which has no encoder): the more significant 7-bit groups of `v`,
most significant first and without leading zero groups, each with the
continuation bit set.  `fuel` bounds the number of groups. -/
def vli_encode_groups : Nat → Nat → List Nat → List Nat
  | 0, _, acc => acc
  | fuel + 1, v, acc =>
    if v = 0 then acc else vli_encode_groups fuel (v / 128) ((v % 128 + 128) :: acc)

/-- The standard encoding of `v` as the spec words it: 7-bit groups most
significant first, continuation bit set on all but the last byte. -/
def vli_encode (v : Nat) : List Nat :=
  vli_encode_groups v (v / 128) [v % 128]

/-! ## Byte order (endianness.cpp) -/

/-- The overload `switch_endianness(uint16_t*)`: the operand is promoted to a
32-bit `int`, so the shifts do not wrap, and the assignment to `*x` keeps the
low 16 bits. -/
def switch_endianness_u16 (x : Nat) : Nat :=
  ((x >>> 8) |||
    ((x <<< 8) &&& 0x00FF0000) |||
    ((x >>> 8) &&& 0x0000FF00) |||
    (x <<< 8)) % 2 ^ 16

/-- The overload `switch_endianness(uint32_t*)`: left shifts wrap at 32 bits. -/
def switch_endianness_u32 (x : Nat) : Nat :=
  ((x >>> 24) |||
    (((x <<< 8) % 2 ^ 32) &&& 0x00FF0000) |||
    ((x >>> 8) &&& 0x0000FF00) |||
    ((x <<< 24) % 2 ^ 32)) % 2 ^ 32

/-! ## Chunk headers (midi.h, read_header.cpp, read_MThd.cpp) -/

/-- The `n` bytes of an unsigned integer object on a little-endian host. -/
def le_bytes : Nat → Nat → List Nat
  | 0, _ => []
  | n + 1, x => x % 256 :: le_bytes n (x / 256)

/-- The unsigned integer held by an object with the given bytes on a
little-endian host. -/
def le_value : List Nat → Nat
  | [] => 0
  | b :: bs => b + 256 * le_value bs

/-- The struct `CHUNK_HEADER` of midi.h: `char id[4]` (as byte values) and
`uint32_t size`. -/
structure CHUNK_HEADER where
  id : Nat × Nat × Nat × Nat
  size : Nat
deriving DecidableEq

/-- The 8 bytes of a `CHUNK_HEADER` object: `id` at offset 0, `size` at offset 4. -/
def CHUNK_HEADER.bytes (c : CHUNK_HEADER) : List Nat :=
  [c.id.1, c.id.2.1, c.id.2.2.1, c.id.2.2.2] ++ le_bytes 4 c.size

/-- The `CHUNK_HEADER` seen through `reinterpret_cast` over 8 bytes. -/
def CHUNK_HEADER.of_bytes (bs : List Nat) : CHUNK_HEADER :=
  { id := (bs.getD 0 0, bs.getD 1 0, bs.getD 2 0, bs.getD 3 0),
    size := le_value ((bs.drop 4).take 4) }

/-- The struct `MThd` of midi.h, packed so that it occupies 14 bytes. -/
structure MThd where
  header : CHUNK_HEADER
  type : Nat
  ntracks : Nat
  division : Nat
deriving DecidableEq

/-- The 14 bytes of an `MThd` object: `header` at offset 0, `type` at 8,
`ntracks` at 10, `division` at 12. -/
def MThd.bytes (m : MThd) : List Nat :=
  m.header.bytes ++ le_bytes 2 m.type ++ le_bytes 2 m.ntracks ++ le_bytes 2 m.division

/-- The `MThd` seen through `reinterpret_cast` over 14 bytes. -/
def MThd.of_bytes (bs : List Nat) : MThd :=
  { header := CHUNK_HEADER.of_bytes (bs.take 8),
    type := le_value ((bs.drop 8).take 2),
    ntracks := le_value ((bs.drop 10).take 2),
    division := le_value ((bs.drop 12).take 2) }

/-- Modelled from the spec: `header_id` is declared in midi.h but its definition is
not among the sources.  Per 06-header-id-tests.cpp it returns the chunk kind
held in the header as a string: exactly the four characters of `id`, in
order. -/
def header_id (c : CHUNK_HEADER) : List Nat :=
  [c.id.1, c.id.2.1, c.id.2.2.1, c.id.2.2.2]

/-- The string literal "MThd" as byte values. -/
def MThd_id : List Nat := [0x4d, 0x54, 0x68, 0x64]

/-- The function `read_header` of read_header.cpp; `header` is `*header` before
the call.  The result is the returned flag, `*header` after the call and the
stream after the call. -/
def read_header (s : IStream) (header : CHUNK_HEADER) : Bool × CHUNK_HEADER × IStream :=
  let r := read 8 s header.bytes
  let result := r.1
  let header := CHUNK_HEADER.of_bytes r.2.1
  let header := { header with size := switch_endianness_u32 header.size }
  (result, header, r.2.2)

/-- The function `read_mthd` of read_MThd.cpp; `mthd` is `*mthd` before the call.
The result is the returned flag, `*mthd` after the call and the stream after
the call. -/
def read_mthd (s : IStream) (mthd : MThd) : Bool × MThd × IStream :=
  let r := read 14 s mthd.bytes
  let result := r.1
  let mthd := MThd.of_bytes r.2.1
  let result := if header_id mthd.header ≠ MThd_id then false else result
  let mthd := { mthd with header := { mthd.header with size := switch_endianness_u32 mthd.header.size } }
  let mthd := { mthd with type := switch_endianness_u16 mthd.type }
  let mthd := { mthd with ntracks := switch_endianness_u16 mthd.ntracks }
  let mthd := { mthd with division := switch_endianness_u16 mthd.division }
  (result, mthd, r.2.2)

/-- The big-endian encoding of a 32-bit value, as the wire format of the spec
has it (not code of the repository). -/
def be_bytes_u32 (x : Nat) : List Nat :=
  [x / 2 ^ 24 % 256, x / 2 ^ 16 % 256, x / 2 ^ 8 % 256, x % 256]

/-! ## `read<uint32_t>` (io.h) -/

/-- The instance `read<uint32_t>` of the template `read`: `sizeof(uint32_t)` is 4
and the object is seen through its 4 bytes; `x` is `*x` before the call. -/
def read_u32 (s : IStream) (x : Nat) : Bool × Nat × IStream :=
  let r := read 4 s (le_bytes 4 x)
  (r.1, le_value r.2.1, r.2.2)

/-! ## Notes (midi.h, Operation.cpp) -/

/-- The struct `NOTE` of midi.h. -/
structure NOTE where
  channel : Nat
  note_index : Nat
  start : Nat
  duration : Nat
deriving DecidableEq

/-- The `operator==` on `NOTE` of Operation.cpp. -/
def NOTE.operator_eq (a b : NOTE) : Bool :=
  (a.channel == b.channel) && (a.note_index == b.note_index) && (a.start == b.start) &&
    (a.duration == b.duration)

/-- The `operator!=` on `NOTE` of Operation.cpp. -/
def NOTE.operator_ne (a b : NOTE) : Bool :=
  !(NOTE.operator_eq a b)

/-! ## Events and the note filter -/

/-- An event as it is handed to an `EventReceiver`: one constructor per method
of the receiver interface, with the arguments the overrides in tests-util.h
take (`dt` first). -/
inductive Event where
  | note_on (dt channel note velocity : Nat)
  | note_off (dt channel note velocity : Nat)
  | polyphonic_key_pressure (dt channel note pressure : Nat)
  | control_change (dt channel controller value : Nat)
  | program_change (dt channel program : Nat)
  | channel_pressure (dt channel pressure : Nat)
  | pitch_wheel_change (dt channel value : Nat)
  | meta (dt type : Nat) (data : List Nat)
  | sysex (dt : Nat) (data : List Nat)
deriving DecidableEq

/-- The relative timestamp carried by an event. -/
def Event.dt : Event → Nat
  | .note_on dt _ _ _ => dt
  | .note_off dt _ _ _ => dt
  | .polyphonic_key_pressure dt _ _ _ => dt
  | .control_change dt _ _ _ => dt
  | .program_change dt _ _ => dt
  | .channel_pressure dt _ _ => dt
  | .pitch_wheel_change dt _ _ => dt
  | .meta dt _ _ => dt
  | .sysex dt _ => dt

/-- The sum of the relative timestamps of a sequence of events. -/
def delta_sum (evs : List Event) : Nat :=
  (evs.map Event.dt).sum

/-- Whether an event is a note on or note off for pitch `note` on `channel`. -/
def Event.touches (channel note : Nat) : Event → Bool
  | .note_on _ c n _ => c = channel ∧ n = note
  | .note_off _ c n _ => c = channel ∧ n = note
  | _ => false

/-- Whether an event is a note on or note off on `channel`. -/
def Event.is_note_on_channel (channel : Nat) : Event → Bool
  | .note_on _ c _ _ => c = channel
  | .note_off _ c _ _ => c = channel
  | _ => false

/-- The spec's PendingNote: the tick at which a note was started and the
velocity of its start event. -/
structure PendingNote where
  start : Nat
  velocity : Nat
deriving DecidableEq

/-- Modelled from the spec: the class `NoteFilter` (the spec's NoteFolder) is used
by 10-note-receiver-tests.cpp but is not defined among the sources.  Per the
spec it is bound to one channel and keeps a local absolute tick and a map from
pitch to pending note; the vector of notes it appends to belongs to the caller
and is passed to `receive`.  Ticks are the unsigned 32-bit ticks of
`NOTE.start` and `NOTE.duration` in midi.h: the clock and the subtraction that
gives a duration wrap modulo `2^32`. -/
structure NoteFilter where
  channel : Nat
  now : Nat
  pending : Nat → Option PendingNote

/-- Modelled from the spec: the constructor of `NoteFilter`, a filter bound to
`channel` with its clock at 0 and no pending note. -/
def NoteFilter.create (channel : Nat) : NoteFilter :=
  { channel := channel, now := 0, pending := fun _ => none }

/-- Modelled from the spec: closing the pending note at `note`.  If one is
pending, `Note{channel, pitch, start = pending.start, duration = now -
pending.start}` is appended to the output and the pending entry is removed; if
none is pending nothing happens. -/
def NoteFilter.close (f : NoteFilter) (notes : List NOTE) (note : Nat) :
    NoteFilter × List NOTE :=
  match f.pending note with
  | none => (f, notes)
  | some p =>
    ({ f with pending := fun q => if q = note then none else f.pending q },
      notes ++ [{ channel := f.channel, note_index := note, start := p.start,
                  duration := (f.now + 2 ^ 32 - p.start) % 2 ^ 32 }])

/-- Modelled from the spec: the nine event methods of `NoteFilter`, as one
function of the event.  Every event advances the local tick by its `dt`, in
32-bit arithmetic.  A note
on or note off for another channel changes nothing else.  A note on with
velocity 0 and a note off close the pending note at the pitch; any other note on
opens (or overwrites) the pending note at the pitch with `start = now`. -/
def NoteFilter.receive (f : NoteFilter) (notes : List NOTE) (e : Event) :
    NoteFilter × List NOTE :=
  let f := { f with now := (f.now + e.dt) % 2 ^ 32 }
  match e with
  | .note_on _ channel note velocity =>
    if channel ≠ f.channel then (f, notes)
    else if velocity = 0 then f.close notes note
    else
      ({ f with pending := fun q =>
          if q = note then some { start := f.now, velocity := velocity } else f.pending q },
        notes)
  | .note_off _ channel note _ =>
    if channel ≠ f.channel then (f, notes)
    else f.close notes note
  | _ => (f, notes)

/-- A note filter fed a sequence of events, in order. -/
def NoteFilter.run (f : NoteFilter) (notes : List NOTE) (evs : List Event) :
    NoteFilter × List NOTE :=
  evs.foldl (fun st e => st.1.receive st.2 e) (f, notes)

/-! ## Track chunks -/

/-- The string literal "MTrk" as byte values. -/
def MTrk_id : List Nat := [0x4d, 0x54, 0x72, 0x6b]

/-- Whether an event is the meta event of type `0x2F` that ends a track. -/
def Event.is_end_of_track : Event → Bool
  | .meta _ type _ => type = 0x2F
  | _ => false

/-- Modelled from the spec: the VarInt Decoder as the track decoder of the spec
uses it, over the bytes still to be read.  Each byte contributes its low 7 bits,
most significant group first, in a 32-bit accumulator; a byte with the high bit
clear ends the integer; the decode fails when the bytes run out before such a
byte.  The result is the value and the bytes left. -/
def decode_varint : List Nat → Nat → Option (Nat × List Nat)
  | [], _ => none
  | b :: rest, acc =>
    if b >>> 7 = 1 then decode_varint rest (((acc <<< 7) % 2 ^ 32) ||| (b &&& 0x7f))
    else some (((acc <<< 7) % 2 ^ 32) ||| (b &&& 0x7f), rest)

/-- Reading `n` raw bytes; fails when fewer than `n` are left. -/
def take_bytes (n : Nat) (d : List Nat) : Option (List Nat × List Nat) :=
  if n ≤ d.length then some (d.take n, d.drop n) else none

/-- Modelled from the spec: step 4 of the track decoder, the dispatch on the
status byte.  `d` starts at the first data byte.  `0xFF` is a meta event (type
byte, VarInt length, that many raw bytes), `0xF0` and `0xF7` a system exclusive
event (VarInt length, that many raw bytes); otherwise the high nibble selects
the channel event and the low nibble is the channel.  Note off, note on,
polyphonic pressure and control change take 2 data bytes, program change and
channel pressure 1, and pitch bend 2 that are combined into a 14-bit value, low
7 bits from the first.  A status byte with no matching event is a decode
failure. -/
def decode_payload (dt status : Nat) (d : List Nat) : Option (Event × List Nat) :=
  if status = 0xFF then
    match d with
    | [] => none
    | type :: d1 =>
      match decode_varint d1 0 with
      | none => none
      | some (len, d2) =>
        match take_bytes len d2 with
        | none => none
        | some (data, d3) => some (.meta dt type data, d3)
  else if status = 0xF0 ∨ status = 0xF7 then
    match decode_varint d 0 with
    | none => none
    | some (len, d2) =>
      match take_bytes len d2 with
      | none => none
      | some (data, d3) => some (.sysex dt data, d3)
  else
    let channel := status &&& 0x0F
    let kind := status >>> 4
    if kind = 0xC ∨ kind = 0xD then
      match d with
      | b1 :: d1 =>
        if kind = 0xC then some (.program_change dt channel b1, d1)
        else some (.channel_pressure dt channel b1, d1)
      | _ => none
    else
      match d with
      | b1 :: b2 :: d2 =>
        if kind = 0x8 then some (.note_off dt channel b1 b2, d2)
        else if kind = 0x9 then some (.note_on dt channel b1 b2, d2)
        else if kind = 0xA then some (.polyphonic_key_pressure dt channel b1 b2, d2)
        else if kind = 0xB then some (.control_change dt channel b1 b2, d2)
        else if kind = 0xE then
          some (.pitch_wheel_change dt channel ((b1 &&& 0x7F) ||| ((b2 &&& 0x7F) <<< 7)), d2)
        else none
      | _ => none

/-- Modelled from the spec: steps 3 to 5 of the track decoder, one pass of its
loop.  The delta time is decoded, then the next byte `b` is read.  If `b < 0x80`
it is the first data byte of an event decoded with the cached running status
(a failure when there is none); otherwise `b` is the status byte, and it
replaces the running status when it is a channel status (high nibble `0x8` to
`0xE`).  The result is the event as it is forwarded to the sink, carrying the
delta time as decoded, the running status and the bytes left. -/
def decode_event (running_status : Option Nat) (d : List Nat) :
    Option (Event × Option Nat × List Nat) :=
  match decode_varint d 0 with
  | none => none
  | some (dt, d1) =>
    match d1 with
    | [] => none
    | b :: d2 =>
      if b < 0x80 then
        match running_status with
        | none => none
        | some status =>
          match decode_payload dt status (b :: d2) with
          | none => none
          | some (e, d3) => some (e, running_status, d3)
      else
        match decode_payload dt b d2 with
        | none => none
        | some (e, d3) =>
          some (e, if 0x8 ≤ b >>> 4 ∧ b >>> 4 ≤ 0xE then some b else running_status, d3)

/-- Modelled from the spec: the loop of the track decoder.  Events are decoded
and forwarded one by one; the loop stops with true after forwarding a meta
event of type `0x2F`, and with false when an event cannot be decoded.  The
result is the returned flag, the events forwarded to the sink in order, and the
bytes left.  `fuel` bounds the number of passes. -/
def read_events : Nat → Option Nat → List Nat → Bool × List Event × List Nat
  | 0, _, d => (false, [], d)
  | fuel + 1, running_status, d =>
    match decode_event running_status d with
    | none => (false, [], [])
    | some (e, rs, d1) =>
      if e.is_end_of_track then (true, [e], d1)
      else
        let r := read_events fuel rs d1
        (r.1, e :: r.2.1, r.2.2)

/-- Modelled from the spec: `read_mtrk` (the spec's decode_chunk) is called by
the tests but is not defined among the sources.  It reads a chunk header with
`read_header`, returns false at once when that fails or the id is not `MTrk`,
and otherwise runs the event loop with no running status; the declared size is
not used.  Every pass of the loop consumes at least one byte, so the number of
bytes left bounds the passes.  The result is the returned flag, the events
forwarded to the receiver in order, and the stream after the call.  The absolute
tick the spec accumulates is never handed to the receiver and is left out. -/
def read_mtrk (s : IStream) : Bool × List Event × IStream :=
  let r := read_header s { id := (0, 0, 0, 0), size := 0 }
  if r.1 = false then (false, [], r.2.2)
  else if header_id r.2.1 ≠ MTrk_id then (false, [], r.2.2)
  else
    let t := read_events r.2.2.data.length none r.2.2.data
    (t.1, t.2.1, { data := t.2.2, fail := !t.1 })

/-- A chunk body `d` that decodes, from running status `rs`, into the events
`evs` of which the last and only the last is the end of track, leaving
`rest`. -/
inductive TrackDecodes : Option Nat → List Nat → List Event → List Nat → Prop where
  | last (rs : Option Nat) (d : List Nat) (e : Event) (rs1 : Option Nat) (rest : List Nat) :
      decode_event rs d = some (e, rs1, rest) → e.is_end_of_track = true →
      TrackDecodes rs d [e] rest
  | step (rs : Option Nat) (d : List Nat) (e : Event) (rs1 : Option Nat) (d1 : List Nat)
      (es : List Event) (rest : List Nat) :
      decode_event rs d = some (e, rs1, d1) → e.is_end_of_track = false →
      TrackDecodes rs1 d1 es rest → TrackDecodes rs d (e :: es) rest

/-- The bytes `d` consist of one group per event of `evs`, followed by `rest`.
Each group starts with a variable-length integer `vb`, which
`read_variable_length_integer` called at that place decodes to the delta time
of the event of the group, and goes on with the bytes `eb` of the event
itself. -/
inductive WireDeltas : List Nat → List Event → List Nat → Prop where
  | done (rest : List Nat) : WireDeltas rest [] rest
  | group (vb eb d : List Nat) (e : Event) (evs : List Event) (rest : List Nat) :
      (∀ fuel, vb.length ≤ fuel →
        read_variable_length_integer fuel ⟨vb ++ (eb ++ d), false⟩
          = some (Except.ok (e.dt, ⟨eb ++ d, false⟩))) →
      WireDeltas d evs rest → WireDeltas (vb ++ (eb ++ d)) (e :: evs) rest

/-! ## Receivers: the test receiver and the multicaster -/

/-- The class `TestEventReceiver` of tests-util.h: the events still expected,
whether every assertion made so far has passed, and whether a `REQUIRE` has
failed, which ends the test case. -/
structure TestEventReceiver where
  expected_events : List Event
  passed : Bool
  aborted : Bool
deriving DecidableEq

/-- The `REQUIRE`s a method of `TestEventReceiver` makes on the event at the
front of the expected list: the `dynamic_cast` to the kind of the call must
succeed, and for meta and system exclusive events the data sizes must agree. -/
def TestEventReceiver.required : Event → Event → Bool
  | .note_on _ _ _ _, .note_on _ _ _ _ => true
  | .note_off _ _ _ _, .note_off _ _ _ _ => true
  | .polyphonic_key_pressure _ _ _ _, .polyphonic_key_pressure _ _ _ _ => true
  | .control_change _ _ _ _, .control_change _ _ _ _ => true
  | .program_change _ _ _, .program_change _ _ _ => true
  | .channel_pressure _ _ _, .channel_pressure _ _ _ => true
  | .pitch_wheel_change _ _ _, .pitch_wheel_change _ _ _ => true
  | .meta _ _ data, .meta _ _ data2 => data.length = data2.length
  | .sysex _ data, .sysex _ data2 => data.length = data2.length
  | _, _ => false

/-- The `CHECK`s a method of `TestEventReceiver` makes between the expected event
and the arguments of the call.  The pitch wheel method compares the delta time
and the value only. -/
def TestEventReceiver.checked : Event → Event → Bool
  | .note_on dt c n v, .note_on dt2 c2 n2 v2 => dt = dt2 ∧ c = c2 ∧ n = n2 ∧ v = v2
  | .note_off dt c n v, .note_off dt2 c2 n2 v2 => dt = dt2 ∧ c = c2 ∧ n = n2 ∧ v = v2
  | .polyphonic_key_pressure dt c n v, .polyphonic_key_pressure dt2 c2 n2 v2 =>
    dt = dt2 ∧ c = c2 ∧ n = n2 ∧ v = v2
  | .control_change dt c n v, .control_change dt2 c2 n2 v2 =>
    dt = dt2 ∧ c = c2 ∧ n = n2 ∧ v = v2
  | .program_change dt c x, .program_change dt2 c2 x2 => dt = dt2 ∧ c = c2 ∧ x = x2
  | .channel_pressure dt c x, .channel_pressure dt2 c2 x2 => dt = dt2 ∧ c = c2 ∧ x = x2
  | .pitch_wheel_change dt _ x, .pitch_wheel_change dt2 _ x2 => dt = dt2 ∧ x = x2
  | .meta dt type data, .meta dt2 type2 data2 => dt = dt2 ∧ type = type2 ∧ data = data2
  | .sysex dt data, .sysex dt2 data2 => dt = dt2 ∧ data = data2
  | _, _ => false

/-- The nine event methods of `TestEventReceiver`, as one function of the event
of the call: the front of the expected list is required to exist, removed,
required to be of the kind of the call, and compared with the arguments. -/
def TestEventReceiver.receive (r : TestEventReceiver) (e : Event) : TestEventReceiver :=
  if r.aborted then r
  else
    match r.expected_events with
    | [] => { r with passed := false, aborted := true }
    | expected :: rest =>
      if TestEventReceiver.required expected e then
        { expected_events := rest, passed := r.passed && TestEventReceiver.checked expected e,
          aborted := false }
      else
        { expected_events := rest, passed := false, aborted := true }

/-- The method `check_finished` of `TestEventReceiver` together with the
assertions made before: all have passed and no expected event is left. -/
def TestEventReceiver.finished (r : TestEventReceiver) : Bool :=
  r.passed && r.expected_events.isEmpty

/-- Modelled from the spec: the class `EventMulticaster` (the spec's Broadcaster)
is used by 11-multicaster-tests.cpp but is not defined among the sources.  It
holds receivers in registration order and forwards every call to each of them,
in that order and with the same arguments.  `step` is the event method of the
receivers, `σ` their state and `ω` the data of the caller they may write to,
such as the vector of notes; receivers of different classes are covered by a
sum type for `σ`.  The result is the receivers and the caller's data after the
call. -/
def EventMulticaster.receive {σ ω : Type} (step : σ → ω → Event → σ × ω) :
    List σ → ω → Event → List σ × ω
  | [], w, _ => ([], w)
  | r :: rs, w, e =>
    let a := step r w e
    let b := EventMulticaster.receive step rs a.2 e
    (a.1 :: b.1, b.2)

/-- A multicaster fed a sequence of events, in order. -/
def EventMulticaster.run {σ ω : Type} (step : σ → ω → Event → σ × ω) (rs : List σ) (w : ω)
    (evs : List Event) : List σ × ω :=
  evs.foldl (fun st e => EventMulticaster.receive step st.1 st.2 e) (rs, w)

/-- A receiver that writes every call it receives, with its own number, to a
log shared with the other receivers. -/
def log_step (id : Nat) (log : List (Nat × Event)) (e : Event) : Nat × List (Nat × Event) :=
  (id, log ++ [(id, e)])

/-! ## Whole files -/

/-- Modelled from the spec: the loop of `read_notes` over the track chunks.  Per
12-read-notes-tests.cpp each track is read by `read_mtrk` into a multicaster
over one fresh `NoteFilter` per channel, 16 in all, that append to the vector
of the caller; a track that fails makes the whole call fail. -/
def read_tracks : Nat → IStream → List NOTE → Bool × List NOTE × IStream
  | 0, s, notes => (true, notes, s)
  | n + 1, s, notes =>
    let t := read_mtrk s
    let filters := (List.range 16).map NoteFilter.create
    let notes := (EventMulticaster.run NoteFilter.receive filters notes t.2.1).2
    if t.1 = false then (false, notes, t.2.2)
    else read_tracks n t.2.2 notes

/-- Modelled from the spec: `read_notes` (the spec's decode_sequence) is called by
12-read-notes-tests.cpp but is not defined among the sources.  It reads the
`MThd` chunk with `read_mthd`, fails when that fails, and then reads as many
track chunks as the header declares.  `notes` is the vector of the caller
before the call; the result is the returned flag, the vector after the call
and the stream after the call. -/
def read_notes (s : IStream) (notes : List NOTE) : Bool × List NOTE × IStream :=
  let r := read_mthd s
    { header := { id := (0, 0, 0, 0), size := 0 }, type := 0, ntracks := 0, division := 0 }
  if r.1 = false then (false, notes, r.2.2)
  else read_tracks r.2.1.ntracks r.2.2 notes

/-- A track chunk that holds one complete note: the four bytes of its declared
length, the channel, pitch and velocity of the note on, the velocity of the
note off, and the delta times of the two events. -/
structure NotePairTrack where
  l0 : Nat
  l1 : Nat
  l2 : Nat
  l3 : Nat
  c : Nat
  p : Nat
  v : Nat
  w : Nat
  don : Nat
  doff : Nat

/-- The bytes of the track chunk as the wire format of the spec has it: header,
note on, note off and end of track, the delta times in the standard
encoding. -/
def NotePairTrack.bytes (t : NotePairTrack) : List Nat :=
  MTrk_id ++ [t.l0, t.l1, t.l2, t.l3] ++
    (vli_encode t.don ++ [0x90 + t.c, t.p, t.v] ++
      (vli_encode t.doff ++ [0x80 + t.c, t.p, t.w] ++ [0x00, 0xFF, 0x2F, 0x00]))

/-- The note the track holds, timed from the start of the track. -/
def NotePairTrack.note (t : NotePairTrack) : NOTE :=
  { channel := t.c, note_index := t.p, start := t.don, duration := t.doff }

/-- The channel is one of the 16, the note on has a velocity above 0 and the
delta times fit the four groups of a variable-length integer. -/
def NotePairTrack.valid (t : NotePairTrack) : Prop :=
  t.c < 16 ∧ 0 < t.v ∧ t.don < 2 ^ 28 ∧ t.doff < 2 ^ 28

/-! ## Colors (color.h, color.cpp) -/

/-- The struct `Color` of color.h.  The components are `double`s in the code and
exact rationals here. -/
structure Color where
  r : ℚ
  g : ℚ
  b : ℚ
deriving DecidableEq

/-- The function `clamp(double)` of the anonymous namespace of color.cpp. -/
def clamp (x : ℚ) : ℚ :=
  if x < 0 then 0
  else if x > 1 then 1
  else x

/-- The method `Color::clamp`: the receiver after the call. -/
def Color.clamp (c : Color) : Color :=
  { r := Midi.clamp c.r, g := Midi.clamp c.g, b := Midi.clamp c.b }

/-- The method `Color::clamped`, which works on a copy: the receiver after the
call and the color returned. -/
def Color.clamped (c : Color) : Color × Color :=
  let copy := c
  let copy := copy.clamp
  (c, copy)

/-! ## Bitwise arithmetic -/

theorem and_7f (b : Nat) : b &&& 0x7f = b % 128 :=
  Nat.and_pow_two_sub_one_eq_mod b 7

theorem or_group (r b : Nat) :
    ((r <<< 7) % 2 ^ 32) ||| (b &&& 0x7f) = (r * 128) % 2 ^ 32 + b % 128 := by
  have h2 : (r <<< 7) % 2 ^ 32 = 2 ^ 7 * (r % 2 ^ 25) := by
    rw [Nat.shiftLeft_eq]; norm_num; omega
  have h3 : b % 2 ^ 7 < 2 ^ 7 := Nat.mod_lt _ (by norm_num)
  rw [and_7f, h2]
  rw [show b % 128 = b % 2 ^ 7 by norm_num, ← Nat.mul_add_lt_is_or h3]
  norm_num; omega

theorem msb_set (b : Nat) (h : 128 ≤ b ∧ b < 256) : b >>> 7 = 1 := by
  rw [Nat.shiftRight_eq_div_pow]; norm_num; omega

theorem msb_clear (b : Nat) (h : b < 128) : b >>> 7 ≠ 1 := by
  rw [Nat.shiftRight_eq_div_pow]; norm_num; omega

/-! ## Reading single bytes -/

theorem read_byte_cons (b : Nat) (rest : List Nat) :
    read_byte ⟨b :: rest, false⟩ = Except.ok (b, ⟨rest, false⟩) := by
  simp [read_byte, read]

theorem read_byte_nil : read_byte ⟨[], false⟩ = Except.error DecodeError.TruncatedInput := by
  simp [read_byte, read]

theorem read_byte_failed (d : List Nat) :
    read_byte ⟨d, true⟩ = Except.error DecodeError.TruncatedInput := by
  simp [read_byte, read]

/-! ## The variable-length integer loop -/

theorem vli_loop_exit (fuel msb result : Nat) (s : IStream) (h : msb ≠ 1) :
    vli_loop fuel msb result s = some (Except.ok (result, s)) := by
  cases fuel <;> simp [vli_loop, h]

theorem vli_loop_terminated (last : Nat) (rest : List Nat) (hlast : last < 128) :
    ∀ (bs : List Nat) (fuel result : Nat), (∀ b ∈ bs, 128 ≤ b ∧ b < 256) →
      bs.length + 1 ≤ fuel →
      vli_loop fuel 1 result ⟨bs ++ last :: rest, false⟩
        = some (Except.ok (vli_acc result (bs ++ [last]), ⟨rest, false⟩)) := by
  intro bs
  induction bs with
  | nil =>
    intro fuel result _ hf
    obtain ⟨f, rfl⟩ : ∃ f, fuel = f + 1 := ⟨fuel - 1, by simp at hf; omega⟩
    simp only [vli_loop, List.nil_append, read_byte_cons, if_true]
    rw [vli_loop_exit _ _ _ _ (msb_clear last hlast)]
    simp [vli_acc]
  | cons b bs ih =>
    intro fuel result hbs hf
    obtain ⟨f, rfl⟩ : ∃ f, fuel = f + 1 := ⟨fuel - 1, by simp at hf; omega⟩
    have hb : 128 ≤ b ∧ b < 256 := hbs b (List.mem_cons_self _ _)
    simp only [vli_loop, List.cons_append, read_byte_cons, if_true, msb_set b hb]
    rw [ih f _ (fun x hx => hbs x (List.mem_cons_of_mem _ hx)) (by simp at hf; omega)]
    simp [vli_acc]

theorem vli_acc_zero_cons (b : Nat) (bs : List Nat) :
    vli_acc 0 (b :: bs) = vli_acc (b &&& 0x7f) bs := by
  simp [vli_acc]

theorem rvli_terminated_acc (fuel : Nat) (bs : List Nat) (last : Nat) (rest : List Nat)
    (hbs : ∀ b ∈ bs, 128 ≤ b ∧ b < 256) (hlast : last < 128) (hf : bs.length ≤ fuel) :
    read_variable_length_integer fuel ⟨bs ++ last :: rest, false⟩
      = some (Except.ok (vli_acc 0 (bs ++ [last]), ⟨rest, false⟩)) := by
  cases bs with
  | nil =>
    simp only [read_variable_length_integer, List.nil_append, read_byte_cons]
    rw [vli_loop_exit _ _ _ _ (msb_clear last hlast), vli_acc_zero_cons]
    simp [vli_acc]
  | cons b bs =>
    have hb : 128 ≤ b ∧ b < 256 := hbs b (List.mem_cons_self _ _)
    simp only [read_variable_length_integer, List.cons_append, read_byte_cons, msb_set b hb]
    rw [vli_loop_terminated last rest hlast bs fuel _
      (fun x hx => hbs x (List.mem_cons_of_mem _ hx)) (by simpa using hf), vli_acc_zero_cons]

/-! ## The accumulated value -/

theorem vli_sum_append (bs cs : List Nat) :
    vli_sum (bs ++ cs) = vli_sum bs * 128 ^ cs.length + vli_sum cs := by
  induction bs with
  | nil => simp [vli_sum]
  | cons b bs ih =>
    rw [List.cons_append, vli_sum, vli_sum, ih, List.length_append, pow_add]
    ring

theorem vli_sum_lt (bs : List Nat) : vli_sum bs < 128 ^ bs.length := by
  induction bs with
  | nil => simp [vli_sum]
  | cons b bs ih =>
    simp only [vli_sum, List.length_cons, pow_succ, and_7f]
    have hb : b % 128 < 128 := Nat.mod_lt _ (by norm_num)
    have hp : 0 < 128 ^ bs.length := Nat.pos_of_ne_zero (by positivity)
    nlinarith

theorem vli_acc_eq_sum (bs : List Nat) :
    ∀ result, result < 2 ^ 32 →
      vli_acc result bs = (result * 128 ^ bs.length + vli_sum bs) % 2 ^ 32 := by
  induction bs with
  | nil =>
    intro result h
    have h2 : result % 2 ^ 32 = result := Nat.mod_eq_of_lt h
    simp only [vli_acc, vli_sum, List.foldl_nil, List.length_nil, pow_zero, mul_one, add_zero, h2]
  | cons b bs ih =>
    intro result _
    have hstep : vli_acc result (b :: bs) = vli_acc ((result * 128) % 2 ^ 32 + b % 128) bs := by
      simp only [vli_acc, List.foldl_cons, or_group]
    have hlt : (result * 128) % 2 ^ 32 + b % 128 < 2 ^ 32 := by
      norm_num; omega
    rw [hstep, ih _ hlt]
    simp only [vli_sum, List.length_cons, and_7f]
    have hmod : (result * 128) % 2 ^ 32 + b % 128 ≡ result * 128 + b % 128 [MOD 2 ^ 32] :=
      (Nat.mod_modEq _ _).add_right _
    have h2 := (hmod.mul_right (128 ^ bs.length)).add_right (vli_sum bs)
    have e : (result * 128 + b % 128) * 128 ^ bs.length + vli_sum bs
        = result * 128 ^ (bs.length + 1) + (b % 128 * 128 ^ bs.length + vli_sum bs) := by
      ring
    rw [e] at h2
    exact h2

theorem vli_acc_zero (bs : List Nat) : vli_acc 0 bs = vli_sum bs % 2 ^ 32 := by
  rw [vli_acc_eq_sum bs 0 (by norm_num)]
  simp

theorem vli_acc_zero_short (bs : List Nat) (h : bs.length ≤ 4) : vli_acc 0 bs = vli_sum bs := by
  rw [vli_acc_zero]
  apply Nat.mod_eq_of_lt
  have h1 := vli_sum_lt bs
  have h2 : 128 ^ bs.length ≤ 128 ^ 4 := Nat.pow_le_pow_right (by norm_num) h
  have h3 : (128 : Nat) ^ 4 < 2 ^ 32 := by norm_num
  omega

/-! ## Exhausted input -/

theorem vli_loop_exhausted :
    ∀ (bs : List Nat) (fuel result : Nat), (∀ b ∈ bs, 128 ≤ b ∧ b < 256) →
      bs.length + 1 ≤ fuel →
      vli_loop fuel 1 result ⟨bs, false⟩ = some (Except.error DecodeError.TruncatedInput) := by
  intro bs
  induction bs with
  | nil =>
    intro fuel result _ hf
    obtain ⟨f, rfl⟩ : ∃ f, fuel = f + 1 := ⟨fuel - 1, by simp at hf; omega⟩
    simp only [vli_loop, read_byte_nil, if_true]
  | cons b bs ih =>
    intro fuel result hbs hf
    obtain ⟨f, rfl⟩ : ∃ f, fuel = f + 1 := ⟨fuel - 1, by simp at hf; omega⟩
    have hb : 128 ≤ b ∧ b < 256 := hbs b (List.mem_cons_self _ _)
    simp only [vli_loop, read_byte_cons, if_true, msb_set b hb]
    exact ih f _ (fun x hx => hbs x (List.mem_cons_of_mem _ hx)) (by simp at hf; omega)

theorem rvli_exhausted (fuel : Nat) (bs : List Nat) (hbs : ∀ b ∈ bs, 128 ≤ b ∧ b < 256)
    (hf : bs.length ≤ fuel) :
    read_variable_length_integer fuel ⟨bs, false⟩
      = some (Except.error DecodeError.TruncatedInput) := by
  cases bs with
  | nil => simp only [read_variable_length_integer, read_byte_nil]
  | cons b bs =>
    have hb : 128 ≤ b ∧ b < 256 := hbs b (List.mem_cons_self _ _)
    simp only [read_variable_length_integer, read_byte_cons, msb_set b hb]
    exact vli_loop_exhausted bs fuel _ (fun x hx => hbs x (List.mem_cons_of_mem _ hx))
      (by simpa using hf)

theorem rvli_failed (fuel : Nat) (d : List Nat) :
    read_variable_length_integer fuel ⟨d, true⟩
      = some (Except.error DecodeError.TruncatedInput) := by
  simp only [read_variable_length_integer, read_byte_failed]

/-! ## The standard encoding -/

theorem vli_encode_groups_spec :
    ∀ (fuel w : Nat) (acc : List Nat), w ≤ fuel →
      ∃ bs, vli_encode_groups fuel w acc = bs ++ acc ∧ (∀ b ∈ bs, 128 ≤ b ∧ b < 256) ∧
        vli_sum bs = w ∧ ∀ k, w < 128 ^ k → bs.length ≤ k := by
  intro fuel
  induction fuel with
  | zero =>
    intro w acc hw
    refine ⟨[], by simp [vli_encode_groups], by simp, ?_, by simp⟩
    simp only [vli_sum]; omega
  | succ f ih =>
    intro w acc hw
    by_cases h0 : w = 0
    · subst h0
      exact ⟨[], by simp [vli_encode_groups], by simp, by simp [vli_sum], by simp⟩
    · obtain ⟨bs, hbs, hhigh, hsum, hlen⟩ := ih (w / 128) ((w % 128 + 128) :: acc) (by omega)
      refine ⟨bs ++ [w % 128 + 128], ?_, ?_, ?_, ?_⟩
      · simp [vli_encode_groups, h0, hbs]
      · intro b hb
        rcases List.mem_append.mp hb with hb | hb
        · exact hhigh b hb
        · simp only [List.mem_singleton] at hb
          omega
      · rw [vli_sum_append, hsum]
        simp only [vli_sum, List.length_singleton, List.length_nil, pow_zero, pow_one, and_7f]
        omega
      · intro k hk
        cases k with
        | zero => simp at hk; omega
        | succ k =>
          have := hlen k (by rw [pow_succ] at hk; omega)
          simpa using this

theorem vli_encode_spec (v : Nat) :
    ∃ bs, vli_encode v = bs ++ [v % 128] ∧ (∀ b ∈ bs, 128 ≤ b ∧ b < 256) ∧
      vli_sum (bs ++ [v % 128]) = v ∧ ∀ k, v < 128 ^ (k + 1) → bs.length ≤ k := by
  obtain ⟨bs, hbs, hhigh, hsum, hlen⟩ :=
    vli_encode_groups_spec v (v / 128) [v % 128] (Nat.div_le_self _ _)
  refine ⟨bs, hbs, hhigh, ?_, ?_⟩
  · rw [vli_sum_append, hsum]
    simp only [vli_sum, List.length_singleton, List.length_nil, pow_zero, pow_one, and_7f]
    omega
  · intro k hk
    exact hlen k (by rw [pow_succ] at hk; omega)

theorem split_at_first_terminal :
    ∀ (data : List Nat), (∀ b ∈ data, b < 256) → (∃ b ∈ data, b < 128) →
      ∃ pre t rest, data = pre ++ t :: rest ∧ (∀ b ∈ pre, 128 ≤ b ∧ b < 256) ∧ t < 128 := by
  intro data
  induction data with
  | nil => intro _ h; simp at h
  | cons a as ih =>
    intro hbytes hterm
    by_cases ha : a < 128
    · exact ⟨[], a, as, by simp, by simp, ha⟩
    · have hterm2 : ∃ b ∈ as, b < 128 := by
        obtain ⟨b, hb, hlt⟩ := hterm
        rcases List.mem_cons.mp hb with rfl | hb
        · exact absurd hlt ha
        · exact ⟨b, hb, hlt⟩
      obtain ⟨pre, t, rest, hsplit, hpre, ht⟩ :=
        ih (fun b hb => hbytes b (List.mem_cons_of_mem _ hb)) hterm2
      refine ⟨a :: pre, t, rest, by simp [hsplit], ?_, ht⟩
      intro b hb
      rcases List.mem_cons.mp hb with rfl | hb
      · exact ⟨by omega, hbytes _ (List.mem_cons_self _ _)⟩
      · exact hpre b hb

/-! ## Claims about `read_variable_length_integer` -/

/-- C1: for every byte sequence `b1..bn` with `1 ≤ n ≤ 4` whose bytes before the
last have the high bit set and whose last byte has it clear,
`read_variable_length_integer` returns the sum over `i` of
`(b_i AND 0x7F) * 128^(n-i)`, once the loop is given the `n-1` iterations it
needs. -/
theorem read_variable_length_integer_value (fuel : Nat) (bs : List Nat) (last : Nat)
    (rest : List Nat) (hn : bs.length + 1 ≤ 4) (hbs : ∀ b ∈ bs, 128 ≤ b ∧ b < 256)
    (hlast : last < 128) (hf : bs.length ≤ fuel) :
    read_variable_length_integer fuel ⟨bs ++ last :: rest, false⟩
      = some (Except.ok (vli_sum (bs ++ [last]), ⟨rest, false⟩)) := by
  rw [rvli_terminated_acc fuel bs last rest hbs hlast hf,
    vli_acc_zero_short _ (by simpa using hn)]

/-- C1, literal cases: `{0x81,0x80,0x00}` decodes to `1<<14`, `{0x00}` to `0` and
`{0x7F}` to `127`. -/
theorem read_variable_length_integer_value_witness :
    read_variable_length_integer 2 ⟨[0x81, 0x80, 0x00], false⟩
      = some (Except.ok (1 <<< 14, ⟨[], false⟩)) ∧
    read_variable_length_integer 0 ⟨[0x00], false⟩ = some (Except.ok (0, ⟨[], false⟩)) ∧
    read_variable_length_integer 0 ⟨[0x7F], false⟩ = some (Except.ok (127, ⟨[], false⟩)) :=
  ⟨read_variable_length_integer_value 2 [0x81, 0x80] 0x00 [] (by decide) (by decide)
      (by decide) (by decide),
    read_variable_length_integer_value 0 [] 0x00 [] (by decide) (by decide)
      (by decide) (by decide),
    read_variable_length_integer_value 0 [] 0x7F [] (by decide) (by decide)
      (by decide) (by decide)⟩

/-- C2: round trip.  For every `v < 2^28`, `read_variable_length_integer` applied
to the standard encoding of `v` (followed by any further bytes) returns `v` and
leaves exactly the further bytes in the stream. -/
theorem vli_round_trip (v : Nat) (hv : v < 2 ^ 28) (fuel : Nat) (rest : List Nat)
    (hf : 3 ≤ fuel) :
    read_variable_length_integer fuel ⟨vli_encode v ++ rest, false⟩
      = some (Except.ok (v, ⟨rest, false⟩)) := by
  obtain ⟨bs, henc, hhigh, hsum, hlen⟩ := vli_encode_spec v
  have h3 : bs.length ≤ 3 := hlen 3 (by norm_num; omega)
  have hlast : v % 128 < 128 := Nat.mod_lt _ (by norm_num)
  rw [henc, List.append_assoc, List.singleton_append,
    rvli_terminated_acc fuel bs (v % 128) rest hhigh hlast (by omega),
    vli_acc_zero_short _ (by simp; omega), hsum]

/-- C2 at `v = 0xB2D1`, the three-group example of the assignment text. -/
theorem vli_round_trip_witness :
    vli_encode 0xB2D1 = [0x82, 0xE5, 0x51] ∧
    read_variable_length_integer 3 ⟨vli_encode 0xB2D1 ++ [], false⟩
      = some (Except.ok (0xB2D1, ⟨[], false⟩)) :=
  ⟨by decide, vli_round_trip 0xB2D1 (by norm_num) 3 [] (by norm_num)⟩

/-- C3: `read_variable_length_integer` fails with `TruncatedInput` whenever the
input is exhausted before a terminal byte has been read.  For every input that
is empty or consists only of bytes with the high bit set, the call ends, once
the loop is given one iteration per byte, and its result is the failure
`TruncatedInput`; no integer is returned. -/
theorem read_variable_length_integer_truncated (fuel : Nat) (bs : List Nat)
    (hbs : ∀ b ∈ bs, 128 ≤ b ∧ b < 256) (hf : bs.length ≤ fuel) :
    read_variable_length_integer fuel ⟨bs, false⟩
      = some (Except.error DecodeError.TruncatedInput) ∧
    ∀ v s, read_variable_length_integer fuel ⟨bs, false⟩ ≠ some (Except.ok (v, s)) := by
  have h := rvli_exhausted fuel bs hbs hf
  refine ⟨h, ?_⟩
  intro v s hv
  rw [h] at hv
  cases hv

/-- C3 on the empty input and on `{0x81, 0x80}`, which lack a terminal byte. -/
theorem read_variable_length_integer_truncated_witness :
    read_variable_length_integer 0 ⟨[], false⟩
      = some (Except.error DecodeError.TruncatedInput) ∧
    read_variable_length_integer 2 ⟨[0x81, 0x80], false⟩
      = some (Except.error DecodeError.TruncatedInput) :=
  ⟨(read_variable_length_integer_truncated 0 [] (by decide) (by decide)).1,
    (read_variable_length_integer_truncated 2 [0x81, 0x80] (by decide) (by decide)).1⟩

/-- C4: every input that contains a byte with the high bit clear splits as
`pre ++ t :: rest` at the first such byte `t`; the call consumes exactly
`pre ++ [t]`, leaving the stream good with `rest` in it, and the value it
returns is the same whatever bytes stand in the place of `rest`. -/
theorem read_variable_length_integer_stops_at_terminal (data : List Nat)
    (hbytes : ∀ b ∈ data, b < 256) (hterm : ∃ b ∈ data, b < 128) :
    ∃ pre t rest v, data = pre ++ t :: rest ∧ (∀ b ∈ pre, 128 ≤ b) ∧ t < 128 ∧
      ∀ fuel tail, pre.length ≤ fuel →
        read_variable_length_integer fuel ⟨pre ++ t :: tail, false⟩
          = some (Except.ok (v, ⟨tail, false⟩)) := by
  obtain ⟨pre, t, rest, hsplit, hpre, ht⟩ := split_at_first_terminal data hbytes hterm
  exact ⟨pre, t, rest, vli_acc 0 (pre ++ [t]), hsplit, fun b hb => (hpre b hb).1, ht,
    fun fuel tail hf => rvli_terminated_acc fuel pre t tail hpre ht hf⟩

/-- C4 at `{0x07,0x91,0xD5,0x00,0x00}`: the split exists, and the call returns 7
after consuming one byte. -/
theorem read_variable_length_integer_stops_at_terminal_witness :
    (∃ pre t rest v, [0x07, 0x91, 0xD5, 0x00, 0x00] = pre ++ t :: rest ∧
      (∀ b ∈ pre, 128 ≤ b) ∧ t < 128 ∧
      ∀ fuel tail, pre.length ≤ fuel →
        read_variable_length_integer fuel ⟨pre ++ t :: tail, false⟩
          = some (Except.ok (v, ⟨tail, false⟩))) ∧
    read_variable_length_integer 0 ⟨[0x07, 0x91, 0xD5, 0x00, 0x00], false⟩
      = some (Except.ok (7, ⟨[0x91, 0xD5, 0x00, 0x00], false⟩)) :=
  ⟨read_variable_length_integer_stops_at_terminal [0x07, 0x91, 0xD5, 0x00, 0x00]
      (by decide) (by decide),
    by decide⟩

/-! ## Byte order -/

theorem mask_field (x k n : Nat) :
    x &&& ((2 ^ n - 1) <<< k) = ((x >>> k) % 2 ^ n) <<< k := by
  apply Nat.eq_of_testBit_eq
  intro i
  simp only [Nat.testBit_and, Nat.testBit_shiftLeft, Nat.testBit_two_pow_sub_one,
    Nat.testBit_mod_two_pow, Nat.testBit_shiftRight]
  by_cases h : k ≤ i
  · have : k + (i - k) = i := by omega
    simp [h, this, Bool.and_comm]
  · simp [h]

theorem mask_ff0000 (y : Nat) : y &&& 0x00FF0000 = (y / 2 ^ 16 % 2 ^ 8) * 2 ^ 16 := by
  have h := mask_field y 16 8
  rw [Nat.shiftLeft_eq, Nat.shiftRight_eq_div_pow, Nat.shiftLeft_eq] at h
  exact h

theorem mask_ff00 (y : Nat) : y &&& 0x0000FF00 = (y / 2 ^ 8 % 2 ^ 8) * 2 ^ 8 := by
  have h := mask_field y 8 8
  rw [Nat.shiftLeft_eq, Nat.shiftRight_eq_div_pow, Nat.shiftLeft_eq] at h
  exact h

theorem or_low_field (a b i : Nat) (h : b < 2 ^ i) : b ||| a * 2 ^ i = b + a * 2 ^ i := by
  rw [Nat.or_comm, Nat.mul_comm, ← Nat.mul_add_lt_is_or h, Nat.add_comm]

theorem or_mod_two_pow (a b n : Nat) : (a ||| b) % 2 ^ n = a % 2 ^ n ||| b % 2 ^ n := by
  apply Nat.eq_of_testBit_eq
  intro i
  simp only [Nat.testBit_mod_two_pow, Nat.testBit_or]
  by_cases h : i < n <;> simp [h]

theorem switch_endianness_u32_bytes (b0 b1 b2 b3 : Nat) (h0 : b0 < 256) (h1 : b1 < 256)
    (h2 : b2 < 256) (h3 : b3 < 256) :
    switch_endianness_u32 (b0 + 256 * (b1 + 256 * (b2 + 256 * b3)))
      = b3 + 256 * (b2 + 256 * (b1 + 256 * b0)) := by
  unfold switch_endianness_u32
  rw [mask_ff0000, mask_ff00]
  simp only [Nat.shiftLeft_eq, Nat.shiftRight_eq_div_pow]
  have e1 : (b0 + 256 * (b1 + 256 * (b2 + 256 * b3))) / 2 ^ 24 = b3 := by norm_num; omega
  have e2 : (b0 + 256 * (b1 + 256 * (b2 + 256 * b3))) * 2 ^ 8 % 2 ^ 32 / 2 ^ 16 % 2 ^ 8
      = b1 := by
    norm_num; omega
  have e3 : (b0 + 256 * (b1 + 256 * (b2 + 256 * b3))) / 2 ^ 8 / 2 ^ 8 % 2 ^ 8 = b2 := by
    norm_num; omega
  have e4 : (b0 + 256 * (b1 + 256 * (b2 + 256 * b3))) * 2 ^ 24 % 2 ^ 32 = b0 * 2 ^ 24 := by
    norm_num; omega
  rw [e1, e2, e3, e4]
  have r1 : b3 ||| b1 * 2 ^ 16 ||| b2 * 2 ^ 8 = (b3 ||| b2 * 2 ^ 8) ||| b1 * 2 ^ 16 := by
    rw [Nat.or_assoc, Nat.or_comm (b1 * 2 ^ 16), ← Nat.or_assoc]
  rw [r1, or_low_field b2 b3 8 (by omega), or_low_field b1 _ 16 (by omega),
    or_low_field b0 _ 24 (by omega)]
  norm_num; omega

theorem switch_endianness_u16_bytes (b0 b1 : Nat) (h0 : b0 < 256) (h1 : b1 < 256) :
    switch_endianness_u16 (b0 + 256 * b1) = b1 + 256 * b0 := by
  unfold switch_endianness_u16
  rw [mask_ff0000, mask_ff00]
  simp only [Nat.shiftLeft_eq, Nat.shiftRight_eq_div_pow, or_mod_two_pow]
  have e1 : (b0 + 256 * b1) / 2 ^ 8 % 2 ^ 16 = b1 := by norm_num; omega
  have e2 : (b0 + 256 * b1) * 2 ^ 8 / 2 ^ 16 % 2 ^ 8 * 2 ^ 16 % 2 ^ 16 = 0 := by norm_num
  have e3 : (b0 + 256 * b1) / 2 ^ 8 / 2 ^ 8 % 2 ^ 8 * 2 ^ 8 % 2 ^ 16 = 0 := by norm_num; omega
  have e4 : (b0 + 256 * b1) * 2 ^ 8 % 2 ^ 16 = b0 * 2 ^ 8 := by norm_num; omega
  rw [e1, e2, e3, e4, Nat.or_zero, Nat.or_zero, or_low_field b0 b1 8 (by omega)]
  norm_num; omega

/-! ## Reading whole objects -/

theorem read_good_enough (n : Nat) (data buffer : List Nat) (h : n ≤ data.length) :
    read n ⟨data, false⟩ buffer
      = (true, data.take n ++ buffer.drop n, ⟨data.drop n, false⟩) := by
  simp [read, h]

theorem read_flag (n : Nat) (s : IStream) (buffer : List Nat) :
    (read n s buffer).1 = (!s.fail && decide (n ≤ s.data.length)) := by
  unfold read
  by_cases hf : s.fail = true
  · simp [hf]
  · by_cases hn : n ≤ s.data.length <;> simp [hf, hn]

theorem exists_four_of_length (l : List Nat) (h : 4 ≤ l.length) :
    ∃ a b c d tl, l = a :: b :: c :: d :: tl := by
  match l, h with
  | a :: b :: c :: d :: tl, _ => exact ⟨a, b, c, d, tl, rfl⟩

theorem read_header_eval (b0 b1 b2 b3 b4 b5 b6 b7 : Nat) (rest : List Nat)
    (header : CHUNK_HEADER) :
    read_header ⟨b0 :: b1 :: b2 :: b3 :: b4 :: b5 :: b6 :: b7 :: rest, false⟩ header
      = (true,
          ⟨(b0, b1, b2, b3), switch_endianness_u32 (b4 + 256 * (b5 + 256 * (b6 + 256 * b7)))⟩,
          ⟨rest, false⟩) := by
  simp [read_header, read, CHUNK_HEADER.of_bytes, le_value]

theorem read_mthd_eval (b0 b1 b2 b3 b4 b5 b6 b7 b8 b9 b10 b11 b12 b13 : Nat)
    (rest : List Nat) (mthd : MThd) :
    read_mthd
        ⟨b0 :: b1 :: b2 :: b3 :: b4 :: b5 :: b6 :: b7 :: b8 :: b9 :: b10 :: b11 :: b12 :: b13
          :: rest, false⟩ mthd
      = (decide ([b0, b1, b2, b3] = MThd_id),
          ⟨⟨(b0, b1, b2, b3), switch_endianness_u32 (b4 + 256 * (b5 + 256 * (b6 + 256 * b7)))⟩,
            switch_endianness_u16 (b8 + 256 * b9), switch_endianness_u16 (b10 + 256 * b11),
            switch_endianness_u16 (b12 + 256 * b13)⟩,
          ⟨rest, false⟩) := by
  by_cases h : [b0, b1, b2, b3] = MThd_id <;>
    simp [read_mthd, read, MThd.of_bytes, CHUNK_HEADER.of_bytes, le_value, header_id, h]

/-! ## Claims about `read_header` and `read_mthd` -/

/-- C5: for every good stream with at least 8 bytes `b0..b7` remaining,
`read_header` returns true, sets `id` to `b0..b3` unchanged and `size` to the
big-endian value `b4*2^24 + b5*2^16 + b6*2^8 + b7`, and consumes exactly 8 bytes;
what follows the header (`rest`) plays no part. -/
theorem read_header_ok (b0 b1 b2 b3 b4 b5 b6 b7 : Nat) (rest : List Nat)
    (header : CHUNK_HEADER) (hsize : ∀ b ∈ [b4, b5, b6, b7], b < 256) :
    read_header ⟨b0 :: b1 :: b2 :: b3 :: b4 :: b5 :: b6 :: b7 :: rest, false⟩ header
      = (true, ⟨(b0, b1, b2, b3), b4 * 2 ^ 24 + b5 * 2 ^ 16 + b6 * 2 ^ 8 + b7⟩,
          ⟨rest, false⟩) := by
  simp only [List.mem_cons, List.mem_singleton, forall_eq_or_imp, forall_eq,
    List.not_mem_nil, false_implies, implies_true, and_true] at hsize
  obtain ⟨h4, h5, h6, h7⟩ := hsize
  rw [read_header_eval, switch_endianness_u32_bytes b4 b5 b6 b7 h4 h5 h6 h7]
  have e : b7 + 256 * (b6 + 256 * (b5 + 256 * b4))
      = b4 * 2 ^ 24 + b5 * 2 ^ 16 + b6 * 2 ^ 8 + b7 := by ring
  rw [e]

/-- C5 on the header `MTrk` with size bytes `00 00 01 02` and no byte after the
header: the call succeeds with size `0x0102` although no chunk data follows. -/
theorem read_header_ok_witness :
    read_header ⟨[0x4d, 0x54, 0x72, 0x6b, 0x00, 0x00, 0x01, 0x02], false⟩ ⟨(0, 0, 0, 0), 0⟩
      = (true, ⟨(0x4d, 0x54, 0x72, 0x6b), 0x0102⟩, ⟨[], false⟩) :=
  read_header_ok 0x4d 0x54 0x72 0x6b 0x00 0x00 0x01 0x02 [] ⟨(0, 0, 0, 0), 0⟩ (by decide)

/-- C6: `read_header` returns false for every stream with fewer than 8 bytes
remaining, and returns true only for a good stream that had 8 bytes
available. -/
theorem read_header_truncated (s : IStream) (header : CHUNK_HEADER) :
    (s.data.length < 8 → (read_header s header).1 = false) ∧
    ((read_header s header).1 = true → s.fail = false ∧ 8 ≤ s.data.length) := by
  have hflag : (read_header s header).1 = (!s.fail && decide (8 ≤ s.data.length)) := by
    simp only [read_header, read_flag]
  rw [hflag]
  constructor
  · intro h
    have : ¬ 8 ≤ s.data.length := by omega
    simp [this]
  · intro h
    simpa using h

/-- C6 on a 3-byte buffer. -/
theorem read_header_truncated_witness :
    (read_header ⟨[0x4d, 0x54, 0x68], false⟩ ⟨(0, 0, 0, 0), 0⟩).1 = false :=
  (read_header_truncated ⟨[0x4d, 0x54, 0x68], false⟩ ⟨(0, 0, 0, 0), 0⟩).1 (by decide)

/-- C7: for every input that starts with `'M','T','h','d'` followed by ten more
bytes, `read_mthd` returns true, keeps the id `MThd`, sets `header.size` to the
big-endian value of bytes 4..7 and `type`, `ntracks`, `division` to the
big-endian 16-bit values of bytes 8..9, 10..11 and 12..13, and consumes exactly
14 bytes. -/
theorem read_mthd_ok (b4 b5 b6 b7 b8 b9 b10 b11 b12 b13 : Nat) (rest : List Nat)
    (mthd : MThd) (hb : ∀ b ∈ [b4, b5, b6, b7, b8, b9, b10, b11, b12, b13], b < 256) :
    read_mthd
        ⟨0x4d :: 0x54 :: 0x68 :: 0x64 :: b4 :: b5 :: b6 :: b7 :: b8 :: b9 :: b10 :: b11 :: b12
          :: b13 :: rest, false⟩ mthd
      = (true,
          ⟨⟨(0x4d, 0x54, 0x68, 0x64), b4 * 2 ^ 24 + b5 * 2 ^ 16 + b6 * 2 ^ 8 + b7⟩,
            b8 * 2 ^ 8 + b9, b10 * 2 ^ 8 + b11, b12 * 2 ^ 8 + b13⟩,
          ⟨rest, false⟩) := by
  simp only [List.mem_cons, List.mem_singleton, forall_eq_or_imp, forall_eq,
    List.not_mem_nil, false_implies, implies_true, and_true] at hb
  obtain ⟨h4, h5, h6, h7, h8, h9, h10, h11, h12, h13⟩ := hb
  rw [read_mthd_eval, switch_endianness_u32_bytes b4 b5 b6 b7 h4 h5 h6 h7,
    switch_endianness_u16_bytes b8 b9 h8 h9, switch_endianness_u16_bytes b10 b11 h10 h11,
    switch_endianness_u16_bytes b12 b13 h12 h13]
  have e : b7 + 256 * (b6 + 256 * (b5 + 256 * b4))
      = b4 * 2 ^ 24 + b5 * 2 ^ 16 + b6 * 2 ^ 8 + b7 := by ring
  have e8 : b9 + 256 * b8 = b8 * 2 ^ 8 + b9 := by ring
  have e10 : b11 + 256 * b10 = b10 * 2 ^ 8 + b11 := by ring
  have e12 : b13 + 256 * b12 = b12 * 2 ^ 8 + b13 := by ring
  rw [e, e8, e10, e12]
  simp [MThd_id]

/-- C7 on the second test buffer of 07-read-mthd-tests.cpp: bytes `0x02,0x01`
give division `0x0201`. -/
theorem read_mthd_ok_witness :
    read_mthd ⟨[0x4d, 0x54, 0x68, 0x64, 0x00, 0x00, 0x00, 0x06, 0x00, 0x00, 0x00, 0x05,
        0x02, 0x01], false⟩ ⟨⟨(0, 0, 0, 0), 0⟩, 0, 0, 0⟩
      = (true, ⟨⟨(0x4d, 0x54, 0x68, 0x64), 6⟩, 0, 5, 0x0201⟩, ⟨[], false⟩) :=
  read_mthd_ok 0x00 0x00 0x00 0x06 0x00 0x00 0x00 0x05 0x02 0x01 []
    ⟨⟨(0, 0, 0, 0), 0⟩, 0, 0, 0⟩ (by decide)

/-- C8: `read_mthd` returns false for every stream whose first four bytes are not
exactly `MThd`, whatever the remaining bytes and whatever `*mthd` held. -/
theorem read_mthd_wrong_id (s : IStream) (mthd : MThd) (h : s.data.take 4 ≠ MThd_id) :
    (read_mthd s mthd).1 = false := by
  obtain ⟨data, fail⟩ := s
  by_cases hlen : 14 ≤ data.length
  · obtain ⟨a, b, c, d, tl, rfl⟩ := exists_four_of_length data (by omega)
    have htl : 10 ≤ tl.length := by simpa using hlen
    have hid : ¬ [a, b, c, d] = MThd_id := by simpa using h
    cases fail
    · have hid2 : ¬ (a = 77 ∧ b = 84 ∧ c = 104 ∧ d = 100) := by simpa [MThd_id] using hid
      simp [read_mthd, read, htl, MThd.of_bytes, CHUNK_HEADER.of_bytes, header_id, hid2,
        MThd_id]
    · simp [read_mthd, read]
  · have hflag : (read 14 ⟨data, fail⟩ mthd.bytes).1 = false := by
      rw [read_flag]; simp [hlen]
    simp [read_mthd, hflag]

/-- C8 on the wrong-id test buffer `MThx...` of 07-read-mthd-tests.cpp. -/
theorem read_mthd_wrong_id_witness :
    (read_mthd ⟨[0x4d, 0x54, 0x68, 0x78, 0x00, 0x00, 0x00, 0x06, 0x00, 0x00, 0x00, 0x05,
        0x02, 0x01], false⟩ ⟨⟨(0, 0, 0, 0), 0⟩, 0, 0, 0⟩).1 = false :=
  read_mthd_wrong_id _ _ (by decide)

/-- C9: `read_mthd` returns false for every stream with fewer than 14 bytes, also
when the bytes present start with `MThd`. -/
theorem read_mthd_truncated (s : IStream) (mthd : MThd) (h : s.data.length < 14) :
    (read_mthd s mthd).1 = false := by
  have hflag : (read 14 s mthd.bytes).1 = false := by
    rw [read_flag]
    have : ¬ 14 ≤ s.data.length := by omega
    simp [this]
  simp [read_mthd, hflag]

/-- C9 on the 13-byte test buffer of 07-read-mthd-tests.cpp, whose tag is
`MThd`. -/
theorem read_mthd_truncated_witness :
    (read_mthd ⟨[0x4d, 0x54, 0x68, 0x64, 0x00, 0x00, 0x00, 0x06, 0x00, 0x00, 0x00, 0x05,
        0x02], false⟩ ⟨⟨(0, 0, 0, 0), 0⟩, 0, 0, 0⟩).1 = false :=
  read_mthd_truncated _ _ (by decide)

/-- C10: `read_mthd` does not validate the declared header length.  For every
32-bit value `L`, the input made of `MThd`, the big-endian encoding of `L` and 6
payload bytes is accepted, and `header.size` is `L`. -/
theorem read_mthd_any_length (L : Nat) (hL : L < 2 ^ 32) (p0 p1 p2 p3 p4 p5 : Nat)
    (rest : List Nat) (mthd : MThd) :
    (read_mthd ⟨MThd_id ++ be_bytes_u32 L ++ [p0, p1, p2, p3, p4, p5] ++ rest, false⟩ mthd).1
      = true ∧
    (read_mthd ⟨MThd_id ++ be_bytes_u32 L ++ [p0, p1, p2, p3, p4, p5] ++ rest, false⟩
      mthd).2.1.header.size = L := by
  simp only [MThd_id, be_bytes_u32, List.cons_append, List.nil_append]
  rw [read_mthd_eval,
    switch_endianness_u32_bytes _ _ _ _ (Nat.mod_lt _ (by norm_num))
      (Nat.mod_lt _ (by norm_num)) (Nat.mod_lt _ (by norm_num)) (Nat.mod_lt _ (by norm_num))]
  refine ⟨by simp [MThd_id], ?_⟩
  show L % 256 + 256 * (L / 2 ^ 8 % 256 + 256 * (L / 2 ^ 16 % 256 + 256 * (L / 2 ^ 24 % 256)))
    = L
  norm_num at hL ⊢
  omega

/-- C10 on the buffer of the disabled wrong-length test, which declares length
5: the header is accepted with `header.size = 5`. -/
theorem read_mthd_any_length_witness :
    (read_mthd ⟨MThd_id ++ be_bytes_u32 5 ++ [0x00, 0x00, 0x00, 0x05, 0x02, 0x01] ++ [],
        false⟩ ⟨⟨(0, 0, 0, 0), 0⟩, 0, 0, 0⟩).1 = true ∧
    (read_mthd ⟨MThd_id ++ be_bytes_u32 5 ++ [0x00, 0x00, 0x00, 0x05, 0x02, 0x01] ++ [],
        false⟩ ⟨⟨(0, 0, 0, 0), 0⟩, 0, 0, 0⟩).2.1.header.size = 5 :=
  read_mthd_any_length 5 (by norm_num) 0x00 0x00 0x00 0x05 0x02 0x01 []
    ⟨⟨(0, 0, 0, 0), 0⟩, 0, 0, 0⟩

/-! ## Claims about `switch_endianness`, `read<T>` and `NOTE` -/

/-- C11: for every 32-bit value `x`, `switch_endianness(uint32_t*)` stores the
full byte reversal of `x`: the least significant byte of `x` becomes the most
significant one, and so on. -/
theorem switch_endianness_u32_reverses (x : Nat) (hx : x < 2 ^ 32) :
    switch_endianness_u32 x
      = (x % 256) * 2 ^ 24 + (x / 2 ^ 8 % 256) * 2 ^ 16 + (x / 2 ^ 16 % 256) * 2 ^ 8
        + x / 2 ^ 24 := by
  have hx2 : x = x % 256 + 256 * (x / 2 ^ 8 % 256 + 256 * (x / 2 ^ 16 % 256
      + 256 * (x / 2 ^ 24))) := by
    norm_num; omega
  have h3 : x / 2 ^ 24 < 256 := by norm_num at hx ⊢; omega
  have key := switch_endianness_u32_bytes (x % 256) (x / 2 ^ 8 % 256) (x / 2 ^ 16 % 256)
    (x / 2 ^ 24) (Nat.mod_lt _ (by norm_num)) (Nat.mod_lt _ (by norm_num))
    (Nat.mod_lt _ (by norm_num)) h3
  rw [← hx2] at key
  rw [key]
  ring

/-- C11 at `0x12345678`, which becomes `0x78563412`. -/
theorem switch_endianness_u32_reverses_witness :
    switch_endianness_u32 0x12345678 = 0x78563412 :=
  switch_endianness_u32_reverses 0x12345678 (by norm_num)

/-- C12: for every 16-bit value `x`, `switch_endianness(uint16_t*)` stores
`((x AND 0xFF) << 8) OR (x >> 8)`, which is the value with the two bytes of `x`
swapped and nothing else. -/
theorem switch_endianness_u16_swaps (x : Nat) (hx : x < 2 ^ 16) :
    switch_endianness_u16 x = (((x &&& 0xFF) <<< 8) ||| (x >>> 8)) ∧
    switch_endianness_u16 x = (x % 256) * 2 ^ 8 + x / 2 ^ 8 := by
  have hx2 : x = x % 256 + 256 * (x / 2 ^ 8) := by norm_num; omega
  have h1 : x / 2 ^ 8 < 256 := by norm_num at hx ⊢; omega
  have key := switch_endianness_u16_bytes (x % 256) (x / 2 ^ 8)
    (Nat.mod_lt _ (by norm_num)) h1
  rw [← hx2] at key
  have hval : switch_endianness_u16 x = (x % 256) * 2 ^ 8 + x / 2 ^ 8 := by
    rw [key]; ring
  refine ⟨?_, hval⟩
  have hand : x &&& 0xFF = x % 2 ^ 8 := Nat.and_pow_two_sub_one_eq_mod x 8
  rw [hval, hand, Nat.shiftLeft_eq, Nat.shiftRight_eq_div_pow, Nat.or_comm,
    or_low_field (x % 2 ^ 8) (x / 2 ^ 8) 8 (by norm_num at h1 ⊢; omega)]
  norm_num; omega

/-- C12 at `0x1234`, which becomes `0x3412`. -/
theorem switch_endianness_u16_swaps_witness :
    switch_endianness_u16 0x1234 = (((0x1234 &&& 0xFF) <<< 8) ||| (0x1234 >>> 8)) ∧
    switch_endianness_u16 0x1234 = (0x1234 % 256) * 2 ^ 8 + 0x1234 / 2 ^ 8 :=
  switch_endianness_u16_swaps 0x1234 (by norm_num)

/-- C13: `read<T>` returns false for every stream that holds fewer than
`sizeof(T)` remaining bytes, and true for every good stream that holds at least
`sizeof(T)` bytes. -/
theorem read_succeeds_iff_enough (nr_of_bytes : Nat) (s : IStream) (buffer : List Nat) :
    (s.data.length < nr_of_bytes → (read nr_of_bytes s buffer).1 = false) ∧
    (s.fail = false → nr_of_bytes ≤ s.data.length → (read nr_of_bytes s buffer).1 = true) := by
  rw [read_flag]
  constructor
  · intro h
    have : ¬ nr_of_bytes ≤ s.data.length := by omega
    simp [this]
  · intro hf hn
    simp [hf, hn]

/-- C13 for the 7-byte packed struct `Foo` of 02-read-tests.cpp: reading it from
6 bytes and from 3 bytes fails, reading it from 7 bytes succeeds. -/
theorem read_succeeds_iff_enough_witness :
    (read 7 ⟨[0x01, 0x02, 0x03, 0x04, 0x05, 0x06], false⟩ [0, 0, 0, 0, 0, 0, 0]).1 = false ∧
    (read 7 ⟨[0x01, 0x02, 0x03], false⟩ [0, 0, 0, 0, 0, 0, 0]).1 = false ∧
    (read 7 ⟨[0x01, 0x02, 0x03, 0x04, 0x05, 0x06, 0x07], false⟩ [0, 0, 0, 0, 0, 0, 0]).1
      = true :=
  ⟨(read_succeeds_iff_enough 7 ⟨[0x01, 0x02, 0x03, 0x04, 0x05, 0x06], false⟩ _).1 (by decide),
    (read_succeeds_iff_enough 7 ⟨[0x01, 0x02, 0x03], false⟩ _).1 (by decide),
    (read_succeeds_iff_enough 7 ⟨[0x01, 0x02, 0x03, 0x04, 0x05, 0x06, 0x07], false⟩ _).2
      rfl (by decide)⟩

/-- C14: for every good stream with at least 4 bytes `b0,b1,b2,b3` remaining,
`read<uint32_t>` returns true, stores `b0 + b1*2^8 + b2*2^16 + b3*2^24`, a 32-bit
value, and advances the stream by exactly 4 bytes. -/
theorem read_u32_ok (b0 b1 b2 b3 : Nat) (rest : List Nat) (x : Nat)
    (hb : ∀ b ∈ [b0, b1, b2, b3], b < 256) :
    read_u32 ⟨b0 :: b1 :: b2 :: b3 :: rest, false⟩ x
      = (true, b0 + b1 * 2 ^ 8 + b2 * 2 ^ 16 + b3 * 2 ^ 24, ⟨rest, false⟩) ∧
    b0 + b1 * 2 ^ 8 + b2 * 2 ^ 16 + b3 * 2 ^ 24 < 2 ^ 32 := by
  simp only [List.mem_cons, List.mem_singleton, forall_eq_or_imp, forall_eq,
    List.not_mem_nil, false_implies, implies_true, and_true] at hb
  obtain ⟨h0, h1, h2, h3⟩ := hb
  refine ⟨?_, by norm_num; omega⟩
  have e : b0 + 256 * (b1 + 256 * (b2 + 256 * b3))
      = b0 + b1 * 2 ^ 8 + b2 * 2 ^ 16 + b3 * 2 ^ 24 := by ring
  simp [read_u32, read, le_value, e]

/-- C14 on `{0x12,0x34,0x56,0x78}`, which gives `0x78563412`. -/
theorem read_u32_ok_witness :
    read_u32 ⟨[0x12, 0x34, 0x56, 0x78], false⟩ 0 = (true, 0x78563412, ⟨[], false⟩) :=
  (read_u32_ok 0x12 0x34 0x56 0x78 [] 0 (by decide)).1

/-- C15: for all `NOTE` values `a` and `b`, `a == b` holds iff channel,
note_index, start and duration are all pairwise equal, so a difference in any
single field makes the notes unequal, and `a != b` is exactly the negation of
`a == b`. -/
theorem note_operator_eq_iff (a b : NOTE) :
    (NOTE.operator_eq a b = true ↔
      a.channel = b.channel ∧ a.note_index = b.note_index ∧ a.start = b.start ∧
        a.duration = b.duration) ∧
    (NOTE.operator_eq a b = true ↔ a = b) ∧
    NOTE.operator_ne a b = !(NOTE.operator_eq a b) := by
  have h1 : NOTE.operator_eq a b = true ↔
      a.channel = b.channel ∧ a.note_index = b.note_index ∧ a.start = b.start ∧
        a.duration = b.duration := by
    simp [NOTE.operator_eq, and_assoc]
  refine ⟨h1, ?_, rfl⟩
  rw [h1]
  constructor
  · intro h
    cases a; cases b
    simp only [NOTE.mk.injEq]
    exact h
  · rintro rfl
    exact ⟨rfl, rfl, rfl, rfl⟩


/-! ## The note filter -/

theorem NoteFilter.close_channel (f : NoteFilter) (notes : List NOTE) (p : Nat) :
    (f.close notes p).1.channel = f.channel := by
  unfold NoteFilter.close
  cases f.pending p <;> rfl

theorem NoteFilter.close_now (f : NoteFilter) (notes : List NOTE) (p : Nat) :
    (f.close notes p).1.now = f.now := by
  unfold NoteFilter.close
  cases f.pending p <;> rfl

theorem NoteFilter.close_notes (f : NoteFilter) (notes : List NOTE) (p : Nat) :
    ∃ X, (f.close notes p).2 = notes ++ X ∧
      (X = [] ∨ ∃ start,
        X = [⟨f.channel, p, start, (f.now + 2 ^ 32 - start) % 2 ^ 32⟩]) := by
  unfold NoteFilter.close
  cases h : f.pending p with
  | none => exact ⟨[], by simp, Or.inl rfl⟩
  | some pn =>
    exact ⟨[⟨f.channel, p, pn.start, (f.now + 2 ^ 32 - pn.start) % 2 ^ 32⟩], rfl,
      Or.inr ⟨pn.start, rfl⟩⟩

theorem NoteFilter.receive_channel (f : NoteFilter) (notes : List NOTE) (e : Event) :
    (f.receive notes e).1.channel = f.channel := by
  cases e <;> simp only [NoteFilter.receive] <;>
    (repeat' split) <;> simp [NoteFilter.close_channel]

theorem NoteFilter.receive_now (f : NoteFilter) (notes : List NOTE) (e : Event) :
    (f.receive notes e).1.now = (f.now + e.dt) % 2 ^ 32 := by
  cases e <;> simp only [NoteFilter.receive] <;>
    (repeat' split) <;> simp [NoteFilter.close_now]

theorem NoteFilter.receive_notes (f : NoteFilter) (notes : List NOTE) (e : Event) :
    ∃ X, (f.receive notes e).2 = notes ++ X ∧
      (X = [] ∨ ∃ dt p v start,
        (e = .note_off dt f.channel p v ∨ e = .note_on dt f.channel p 0) ∧
        X = [⟨f.channel, p, start, ((f.now + dt) % 2 ^ 32 + 2 ^ 32 - start) % 2 ^ 32⟩]) := by
  cases e with
  | note_on dt c n v =>
    simp only [NoteFilter.receive, Event.dt]
    by_cases hc : c = f.channel
    · by_cases hv : v = 0
      · subst hc hv
        obtain ⟨X, hX, hX2⟩ := NoteFilter.close_notes { f with now := (f.now + dt) % 2 ^ 32 } notes n
        refine ⟨X, by simpa using hX, ?_⟩
        rcases hX2 with h | ⟨start, h⟩
        · exact Or.inl h
        · exact Or.inr ⟨dt, n, 0, start, Or.inr rfl, h⟩
      · exact ⟨[], by simp [hc, hv], Or.inl rfl⟩
    · exact ⟨[], by simp [hc], Or.inl rfl⟩
  | note_off dt c n v =>
    simp only [NoteFilter.receive, Event.dt]
    by_cases hc : c = f.channel
    · subst hc
      obtain ⟨X, hX, hX2⟩ := NoteFilter.close_notes { f with now := (f.now + dt) % 2 ^ 32 } notes n
      refine ⟨X, by simpa using hX, ?_⟩
      rcases hX2 with h | ⟨start, h⟩
      · exact Or.inl h
      · exact Or.inr ⟨dt, n, v, start, Or.inl rfl, h⟩
    · exact ⟨[], by simp [hc], Or.inl rfl⟩
  | _ => exact ⟨[], by simp [NoteFilter.receive], Or.inl rfl⟩

theorem NoteFilter.receive_other_channel (f : NoteFilter) (notes : List NOTE) (e : Event)
    (h : e.is_note_on_channel f.channel = false) : (f.receive notes e).2 = notes := by
  cases e <;> simp_all [NoteFilter.receive, Event.is_note_on_channel]

theorem NoteFilter.receive_pending (f : NoteFilter) (notes : List NOTE) (e : Event) (p : Nat)
    (h : e.touches f.channel p = false) : (f.receive notes e).1.pending p = f.pending p := by
  cases e with
  | note_on dt c n v =>
    simp only [NoteFilter.receive]
    by_cases hc : c = f.channel
    · have hn : ¬ p = n := by
        intro hpn
        simp [Event.touches, hc, hpn] at h
      by_cases hv : v = 0
      · simp only [hc, hv, ne_eq, not_true_eq_false, if_false, if_true, NoteFilter.close]
        split <;> simp [hn]
      · simp [hc, hv, hn]
    · simp [hc]
  | note_off dt c n v =>
    simp only [NoteFilter.receive]
    by_cases hc : c = f.channel
    · have hn : ¬ p = n := by
        intro hpn
        simp [Event.touches, hc, hpn] at h
      simp only [hc, ne_eq, not_true_eq_false, if_false, NoteFilter.close]
      split <;> simp [hn]
    · simp [hc]
  | _ => simp [NoteFilter.receive]

theorem NoteFilter.run_nil (f : NoteFilter) (notes : List NOTE) : f.run notes [] = (f, notes) :=
  rfl

theorem NoteFilter.run_cons (f : NoteFilter) (notes : List NOTE) (e : Event)
    (evs : List Event) :
    f.run notes (e :: evs) = (f.receive notes e).1.run (f.receive notes e).2 evs := rfl

theorem NoteFilter.run_append (f : NoteFilter) (notes : List NOTE) (as bs : List Event) :
    f.run notes (as ++ bs) = (f.run notes as).1.run (f.run notes as).2 bs := by
  simp [NoteFilter.run, List.foldl_append]

theorem NoteFilter.run_channel (evs : List Event) :
    ∀ (f : NoteFilter) (notes : List NOTE), (f.run notes evs).1.channel = f.channel := by
  induction evs with
  | nil => intro f notes; rfl
  | cons e evs ih =>
    intro f notes
    rw [NoteFilter.run_cons, ih, NoteFilter.receive_channel]

theorem NoteFilter.receive_now_lt (f : NoteFilter) (notes : List NOTE) (e : Event) :
    (f.receive notes e).1.now < 2 ^ 32 := by
  rw [NoteFilter.receive_now]
  exact Nat.mod_lt _ (by norm_num)

theorem NoteFilter.run_now (evs : List Event) :
    ∀ (f : NoteFilter) (notes : List NOTE), f.now < 2 ^ 32 →
      (f.run notes evs).1.now = (f.now + delta_sum evs) % 2 ^ 32 := by
  induction evs with
  | nil =>
    intro f notes hf
    simp only [NoteFilter.run_nil, delta_sum, List.map_nil, List.sum_nil, Nat.add_zero]
    exact (Nat.mod_eq_of_lt hf).symm
  | cons e evs ih =>
    intro f notes _
    rw [NoteFilter.run_cons, ih _ _ (NoteFilter.receive_now_lt f notes e),
      NoteFilter.receive_now]
    simp only [delta_sum, List.map_cons, List.sum_cons] at *
    omega

theorem NoteFilter.run_notes (evs : List Event) :
    ∀ (f : NoteFilter) (notes : List NOTE), ∃ Y, (f.run notes evs).2 = notes ++ Y := by
  induction evs with
  | nil => intro f notes; exact ⟨[], by simp [NoteFilter.run_nil]⟩
  | cons e evs ih =>
    intro f notes
    obtain ⟨X, hX, _⟩ := NoteFilter.receive_notes f notes e
    obtain ⟨Y, hY⟩ := ih (f.receive notes e).1 (f.receive notes e).2
    exact ⟨X ++ Y, by rw [NoteFilter.run_cons, hY, hX, List.append_assoc]⟩

theorem NoteFilter.run_other_channel (evs : List Event) :
    ∀ (f : NoteFilter) (notes : List NOTE),
      (∀ e ∈ evs, e.is_note_on_channel f.channel = false) → (f.run notes evs).2 = notes := by
  induction evs with
  | nil => intro f notes _; rfl
  | cons e evs ih =>
    intro f notes h
    rw [NoteFilter.run_cons, ih, NoteFilter.receive_other_channel f notes e
      (h e (List.mem_cons_self _ _))]
    intro x hx
    rw [NoteFilter.receive_channel]
    exact h x (List.mem_cons_of_mem _ hx)

theorem NoteFilter.run_pending (p : Nat) (evs : List Event) :
    ∀ (f : NoteFilter) (notes : List NOTE),
      (∀ e ∈ evs, e.touches f.channel p = false) →
      (f.run notes evs).1.pending p = f.pending p := by
  induction evs with
  | nil => intro f notes _; rfl
  | cons e evs ih =>
    intro f notes h
    rw [NoteFilter.run_cons, ih, NoteFilter.receive_pending f notes e p
      (h e (List.mem_cons_self _ _))]
    intro x hx
    rw [NoteFilter.receive_channel]
    exact h x (List.mem_cons_of_mem _ hx)


theorem NoteFilter.receive_opening (f : NoteFilter) (notes : List NOTE) (d p v : Nat)
    (hv : 0 < v) :
    (f.receive notes (.note_on d f.channel p v)).2 = notes ∧
    (f.receive notes (.note_on d f.channel p v)).1.pending p
      = some ⟨(f.now + d) % 2 ^ 32, v⟩ := by
  have hv0 : v ≠ 0 := by omega
  simp [NoteFilter.receive, Event.dt, hv0]

theorem NoteFilter.receive_closing (f : NoteFilter) (notes : List NOTE) (dclose p w : Nat)
    (closing : Event) (pn : PendingNote) (hp : f.pending p = some pn)
    (hclose : closing = .note_off dclose f.channel p w ∨ closing = .note_on dclose f.channel p 0) :
    (f.receive notes closing).2
      = notes ++ [⟨f.channel, p, pn.start,
          ((f.now + dclose) % 2 ^ 32 + 2 ^ 32 - pn.start) % 2 ^ 32⟩] := by
  rcases hclose with rfl | rfl <;>
    simp [NoteFilter.receive, NoteFilter.close, Event.dt, hp]

theorem NoteFilter.run_note_pair (f : NoteFilter) (notes : List NOTE)
    (c p v w d dclose : Nat) (evs2 : List Event) (closing : Event) (hc : f.channel = c)
    (hv : 0 < v) (h2 : ∀ e ∈ evs2, e.touches c p = false)
    (hclose : closing = .note_off dclose c p w ∨ closing = .note_on dclose c p 0) :
    (f.run notes (.note_on d c p v :: (evs2 ++ [closing]))).2
      = (f.run notes (.note_on d c p v :: evs2)).2
        ++ [⟨c, p, (f.now + d) % 2 ^ 32, (delta_sum evs2 + dclose) % 2 ^ 32⟩] := by
  subst hc
  obtain ⟨_, ho2⟩ := NoteFilter.receive_opening f notes d p v hv
  have hco : (f.receive notes (.note_on d f.channel p v)).1.channel = f.channel :=
    NoteFilter.receive_channel _ _ _
  have hno : (f.receive notes (.note_on d f.channel p v)).1.now = (f.now + d) % 2 ^ 32 := by
    rw [NoteFilter.receive_now]; rfl
  have hlt : (f.receive notes (.note_on d f.channel p v)).1.now < 2 ^ 32 :=
    NoteFilter.receive_now_lt _ _ _
  rw [NoteFilter.run_cons, NoteFilter.run_cons, NoteFilter.run_append]
  generalize (f.receive notes (.note_on d f.channel p v)).1 = g at ho2 hco hno hlt
  generalize (f.receive notes (.note_on d f.channel p v)).2 = gn
  have hp : (g.run gn evs2).1.pending p = some ⟨(f.now + d) % 2 ^ 32, v⟩ := by
    rw [NoteFilter.run_pending p evs2 g gn (by rw [hco]; exact h2), ho2]
  have hch : (g.run gn evs2).1.channel = f.channel := by
    rw [NoteFilter.run_channel, hco]
  have hnow2 : (g.run gn evs2).1.now = ((f.now + d) % 2 ^ 32 + delta_sum evs2) % 2 ^ 32 := by
    rw [NoteFilter.run_now evs2 g gn hlt, hno]
  rw [NoteFilter.run_cons, NoteFilter.run_nil,
    NoteFilter.receive_closing (g.run gn evs2).1 (g.run gn evs2).2 dclose p w closing
      ⟨(f.now + d) % 2 ^ 32, v⟩ hp (by rw [hch]; exact hclose), hch, hnow2]
  have harith : ((((f.now + d) % 2 ^ 32 + delta_sum evs2) % 2 ^ 32 + dclose) % 2 ^ 32
      + 2 ^ 32 - (f.now + d) % 2 ^ 32) % 2 ^ 32 = (delta_sum evs2 + dclose) % 2 ^ 32 := by
    omega
  rw [harith]

/-! ## Claims about the note filter -/

/-- C16: a note on with velocity 0 closes a note exactly like a note off.  For
every channel `c`, pitch `p`, velocity `v > 0` and 32-bit deltas `d1`, `d2`,
feeding `note_on(d1,c,p,v)` then `note_on(d2,c,p,0)` to a fresh filter bound to
`c` yields exactly the note `{c, p, start d1, duration d2}`, as does feeding a
note off in place of the second event. -/
theorem note_on_velocity_zero_closes (c p v w d1 d2 : Nat) (hv : 0 < v)
    (hd1 : d1 < 2 ^ 32) (hd2 : d2 < 2 ^ 32) :
    ((NoteFilter.create c).run [] [.note_on d1 c p v, .note_on d2 c p 0]).2
      = [⟨c, p, d1, d2⟩] ∧
    ((NoteFilter.create c).run [] [.note_on d1 c p v, .note_off d2 c p w]).2
      = [⟨c, p, d1, d2⟩] := by
  have hv0 : v ≠ 0 := by omega
  constructor <;>
    simp [NoteFilter.run, NoteFilter.receive, NoteFilter.close, NoteFilter.create, Event.dt,
      hv0] <;>
    omega

/-- C16 on the spec's case: `note_on(0,0,50,255)` then `note_on(100,0,50,0)` on a
filter for channel 0 yields the one note `{0, 50, 0, 100}`. -/
theorem note_on_velocity_zero_closes_witness :
    ((NoteFilter.create 0).run [] [.note_on 0 0 50 255, .note_on 100 0 50 0]).2
      = [⟨0, 50, 0, 100⟩] :=
  (note_on_velocity_zero_closes 0 50 255 0 0 100 (by decide) (by decide) (by decide)).1

/-- C17: channel isolation.  For every sequence of events in which no note on or
note off is on channel `c`, a fresh filter bound to `c` emits no note. -/
theorem channel_isolation (c : Nat) (evs : List Event)
    (h : ∀ e ∈ evs, e.is_note_on_channel c = false) :
    ((NoteFilter.create c).run [] evs).2 = [] :=
  NoteFilter.run_other_channel evs (NoteFilter.create c) [] h

/-- C17 on the test case: a filter for channel 2 fed a note on and a note off on
channel 0. -/
theorem channel_isolation_witness :
    ((NoteFilter.create 2).run [] [.note_on 0 0 5 255, .note_off 100 0 5 255]).2 = [] :=
  channel_isolation 2 [.note_on 0 0 5 255, .note_off 100 0 5 255] (by decide)

/-- C18: a note is appended to the output at the moment its closing stop is
processed.  Split any event sequence at an event `e`: the output is the notes
emitted before `e`, then what `e` itself emits (`X`), then the notes emitted
after `e`; and `e` emits at most one note, only when it is a note off or a
velocity-0 note on for the bound channel, that note having the pitch of `e` and
ending at the 32-bit tick of `e`.  So the output is ordered by the position of
the stop events. -/
theorem note_filter_output_order (f : NoteFilter) (notes : List NOTE) (evs1 : List Event)
    (e : Event) (evs2 : List Event) :
    ∃ X Y,
      ((f.run notes evs1).1.receive (f.run notes evs1).2 e).2 = (f.run notes evs1).2 ++ X ∧
      (f.run notes (evs1 ++ e :: evs2)).2 = (f.run notes evs1).2 ++ X ++ Y ∧
      (X = [] ∨ ∃ dt p v start,
        (e = .note_off dt f.channel p v ∨ e = .note_on dt f.channel p 0) ∧
        X = [⟨f.channel, p, start,
          (((f.run notes evs1).1.now + dt) % 2 ^ 32 + 2 ^ 32 - start) % 2 ^ 32⟩]) := by
  obtain ⟨X, hX, hX2⟩ := NoteFilter.receive_notes (f.run notes evs1).1 (f.run notes evs1).2 e
  obtain ⟨Y, hY⟩ := NoteFilter.run_notes evs2
    ((f.run notes evs1).1.receive (f.run notes evs1).2 e).1
    ((f.run notes evs1).1.receive (f.run notes evs1).2 e).2
  refine ⟨X, Y, hX, ?_, ?_⟩
  · rw [NoteFilter.run_append, NoteFilter.run_cons, hY, hX]
  · rw [NoteFilter.run_channel] at hX2
    exact hX2

/-- C18 on the two orders of the tests: with ABab (pitches 10 and 15) the note
of pitch 10 comes first, with AabB (pitches 50 and 40) the note of pitch 40,
which is stopped first, comes first. -/
theorem note_filter_output_order_witness :
    ((NoteFilter.create 0).run [] [.note_on 100 0 10 255, .note_on 200 0 15 255,
        .note_off 300 0 10 255, .note_off 400 0 15 255]).2
      = [⟨0, 10, 100, 500⟩, ⟨0, 15, 300, 700⟩] ∧
    ((NoteFilter.create 0).run [] [.note_on 100 0 50 255, .note_on 200 0 40 255,
        .note_off 400 0 40 255, .note_off 300 0 50 255]).2
      = [⟨0, 40, 300, 400⟩, ⟨0, 50, 100, 900⟩] ∧
    ∃ X Y,
      (((NoteFilter.create 0).run [] [.note_on 100 0 50 255, .note_on 200 0 40 255]).1.receive
          ((NoteFilter.create 0).run [] [.note_on 100 0 50 255, .note_on 200 0 40 255]).2
          (.note_off 400 0 40 255)).2
        = ((NoteFilter.create 0).run [] [.note_on 100 0 50 255, .note_on 200 0 40 255]).2
          ++ X ∧
      ((NoteFilter.create 0).run []
          ([.note_on 100 0 50 255, .note_on 200 0 40 255] ++
            .note_off 400 0 40 255 :: [.note_off 300 0 50 255])).2
        = ((NoteFilter.create 0).run [] [.note_on 100 0 50 255, .note_on 200 0 40 255]).2
          ++ X ++ Y ∧
      (X = [] ∨ ∃ dt p v start,
        (Event.note_off 400 0 40 255 = .note_off dt (NoteFilter.create 0).channel p v ∨
          Event.note_off 400 0 40 255 = .note_on dt (NoteFilter.create 0).channel p 0) ∧
        X = [⟨(NoteFilter.create 0).channel, p, start,
          ((((NoteFilter.create 0).run []
            [.note_on 100 0 50 255, .note_on 200 0 40 255]).1.now + dt) % 2 ^ 32
              + 2 ^ 32 - start) % 2 ^ 32⟩]) :=
  ⟨by decide, by decide,
    note_filter_output_order (NoteFilter.create 0) []
      [.note_on 100 0 50 255, .note_on 200 0 40 255] (.note_off 400 0 40 255)
      [.note_off 300 0 50 255]⟩

/-- C19: the filter advances its clock on every event it receives, whatever the
kind and the channel.  After any events the clock is the sum of their delta
times, taken in the 32-bit tick type; and when a note on for `(c, p)` is
followed by events that do not touch `(c, p)` and then by its closing event, the
emitted note starts at the 32-bit sum of the delta times of all events up to and
including the note on and lasts the 32-bit sum of the delta times of the events
after it up to and including the closing event.  Whenever the delta times of
the whole sequence sum to less than `2^32`, both are the exact sums. -/
theorem note_filter_clock (c p v w d dclose : Nat) (evs1 evs2 : List Event) (closing : Event)
    (hv : 0 < v) (h2 : ∀ e ∈ evs2, e.touches c p = false)
    (hclose : closing = .note_off dclose c p w ∨ closing = .note_on dclose c p 0) :
    (∀ evs, ((NoteFilter.create c).run [] evs).1.now = delta_sum evs % 2 ^ 32) ∧
    ((NoteFilter.create c).run [] (evs1 ++ [.note_on d c p v] ++ evs2 ++ [closing])).2
      = ((NoteFilter.create c).run [] (evs1 ++ [.note_on d c p v] ++ evs2)).2
        ++ [⟨c, p, delta_sum (evs1 ++ [.note_on d c p v]) % 2 ^ 32,
            delta_sum (evs2 ++ [closing]) % 2 ^ 32⟩] ∧
    (delta_sum (evs1 ++ [.note_on d c p v] ++ evs2 ++ [closing]) < 2 ^ 32 →
      ((NoteFilter.create c).run [] (evs1 ++ [.note_on d c p v] ++ evs2 ++ [closing])).2
        = ((NoteFilter.create c).run [] (evs1 ++ [.note_on d c p v] ++ evs2)).2
          ++ [⟨c, p, delta_sum (evs1 ++ [.note_on d c p v]),
              delta_sum (evs2 ++ [closing])⟩]) := by
  have h0 : (NoteFilter.create c).now < 2 ^ 32 := by simp [NoteFilter.create]
  have hclock : ∀ evs, ((NoteFilter.create c).run [] evs).1.now = delta_sum evs % 2 ^ 32 := by
    intro evs
    rw [NoteFilter.run_now evs _ _ h0]
    simp [NoteFilter.create]
  have hsum1 : delta_sum (evs1 ++ [.note_on d c p v]) = delta_sum evs1 + d := by
    simp [delta_sum, Event.dt]
  have hsum2 : delta_sum (evs2 ++ [closing]) = delta_sum evs2 + dclose := by
    rcases hclose with rfl | rfl <;> simp [delta_sum, Event.dt]
  have hsum : delta_sum (evs1 ++ [.note_on d c p v] ++ evs2 ++ [closing])
      = delta_sum evs1 + d + (delta_sum evs2 + dclose) := by
    rw [← hsum1, ← hsum2]
    simp [delta_sum, Nat.add_assoc]
  have hout : ((NoteFilter.create c).run []
        (evs1 ++ [.note_on d c p v] ++ evs2 ++ [closing])).2
      = ((NoteFilter.create c).run [] (evs1 ++ [.note_on d c p v] ++ evs2)).2
        ++ [⟨c, p, delta_sum (evs1 ++ [.note_on d c p v]) % 2 ^ 32,
            delta_sum (evs2 ++ [closing]) % 2 ^ 32⟩] := by
    have hc1 : ((NoteFilter.create c).run [] evs1).1.channel = c := by
      rw [NoteFilter.run_channel]; rfl
    have hn1 : ((NoteFilter.create c).run [] evs1).1.now = delta_sum evs1 % 2 ^ 32 :=
      hclock evs1
    have key := NoteFilter.run_note_pair ((NoteFilter.create c).run [] evs1).1
      ((NoteFilter.create c).run [] evs1).2 c p v w d dclose evs2 closing hc1 hv h2 hclose
    rw [hn1, Nat.mod_add_mod] at key
    rw [hsum1, hsum2]
    simp only [List.append_assoc, List.singleton_append]
    rw [NoteFilter.run_append, List.cons_append, key, NoteFilter.run_append]
  refine ⟨hclock, hout, ?_⟩
  intro hfit
  rw [hout]
  rw [hsum] at hfit
  rw [hsum1, hsum2, Nat.mod_eq_of_lt (by omega : delta_sum evs1 + d < 2 ^ 32),
    Nat.mod_eq_of_lt (by omega : delta_sum evs2 + dclose < 2 ^ 32)]

/-- C19 on the track of 12-read-notes-tests.cpp: a channel-2 note opened after a
channel-0 note on and note off, with deltas 0, 100, 100 and closed 100 ticks
later, starts at 200 and lasts 100. -/
theorem note_filter_clock_witness :
    ((NoteFilter.create 2).run []
        ([.note_on 0 0 5 255, .note_off 100 0 5 255] ++ [.note_on 100 2 8 255] ++ []
          ++ [.note_off 100 2 8 255])).2
      = ((NoteFilter.create 2).run []
          ([.note_on 0 0 5 255, .note_off 100 0 5 255] ++ [.note_on 100 2 8 255] ++ [])).2
        ++ [⟨2, 8, delta_sum ([.note_on 0 0 5 255, .note_off 100 0 5 255]
              ++ [.note_on 100 2 8 255]),
            delta_sum ([] ++ [.note_off 100 2 8 255])⟩] ∧
    delta_sum ([.note_on 0 0 5 255, .note_off 100 0 5 255] ++ [.note_on 100 2 8 255]) = 200 ∧
    delta_sum ([] ++ [.note_off 100 2 8 255]) = 100 :=
  ⟨(note_filter_clock 2 8 255 255 100 100 [.note_on 0 0 5 255, .note_off 100 0 5 255] []
      (.note_off 100 2 8 255) (by decide) (by decide) (Or.inl rfl)).2.2 (by decide),
    by decide, by decide⟩

/-! ## The track decoder -/

theorem decode_varint_length :
    ∀ (d : List Nat) (acc v : Nat) (d1 : List Nat),
      decode_varint d acc = some (v, d1) → d1.length < d.length := by
  intro d
  induction d with
  | nil => intro acc v d1 h; simp [decode_varint] at h
  | cons b rest ih =>
    intro acc v d1 h
    simp only [decode_varint] at h
    split at h
    · have := ih _ _ _ h
      simp only [List.length_cons]; omega
    · simp only [Option.some.injEq, Prod.mk.injEq] at h
      rw [← h.2]; simp

theorem decode_varint_append (t : List Nat) :
    ∀ (d : List Nat) (acc v : Nat) (d1 : List Nat),
      decode_varint d acc = some (v, d1) → decode_varint (d ++ t) acc = some (v, d1 ++ t) := by
  intro d
  induction d with
  | nil => intro acc v d1 h; simp [decode_varint] at h
  | cons b rest ih =>
    intro acc v d1 h
    simp only [decode_varint, List.cons_append] at h ⊢
    split at h
    · rename_i hb
      simp only [hb, if_true]
      exact ih _ _ _ h
    · rename_i hb
      simp only [hb, if_false]
      simp only [Option.some.injEq, Prod.mk.injEq] at h ⊢
      exact ⟨h.1, by rw [h.2]; rfl⟩

theorem take_bytes_length (n : Nat) (d data d1 : List Nat)
    (h : take_bytes n d = some (data, d1)) : d1.length ≤ d.length := by
  unfold take_bytes at h
  split at h
  · simp only [Option.some.injEq, Prod.mk.injEq] at h
    rw [← h.2]; simp
  · simp at h

theorem take_bytes_append (n : Nat) (d data d1 t : List Nat)
    (h : take_bytes n d = some (data, d1)) : take_bytes n (d ++ t) = some (data, d1 ++ t) := by
  unfold take_bytes at h ⊢
  split at h
  · rename_i hn
    simp only [Option.some.injEq, Prod.mk.injEq] at h
    have hn2 : n ≤ (d ++ t).length := by simp; omega
    simp only [hn2, if_true, Option.some.injEq, Prod.mk.injEq]
    constructor
    · rw [List.take_append_of_le_length hn, h.1]
    · rw [List.drop_append_of_le_length hn, h.2]
  · simp at h


theorem decode_payload_spec (dt status : Nat) (d : List Nat) (e : Event) (d1 : List Nat)
    (h : decode_payload dt status d = some (e, d1)) :
    d1.length ≤ d.length ∧ ∀ t, decode_payload dt status (d ++ t) = some (e, d1 ++ t) := by
  unfold decode_payload at h
  by_cases hff : status = 0xFF
  · simp only [hff, if_true] at h
    cases d with
    | nil => simp at h
    | cons type d0 =>
      simp only at h
      cases hv : decode_varint d0 0 with
      | none => simp [hv] at h
      | some r =>
        obtain ⟨len, d2⟩ := r
        simp only [hv] at h
        cases ht : take_bytes len d2 with
        | none => simp [ht] at h
        | some r2 =>
          obtain ⟨data, d3⟩ := r2
          simp only [ht, Option.some.injEq, Prod.mk.injEq] at h
          obtain ⟨rfl, rfl⟩ := h
          have l1 := decode_varint_length _ _ _ _ hv
          have l2 := take_bytes_length _ _ _ _ ht
          refine ⟨by simp only [List.length_cons]; omega, fun t => ?_⟩
          unfold decode_payload
          simp only [hff, if_true, List.cons_append, decode_varint_append t _ _ _ _ hv,
            take_bytes_append _ _ _ _ t ht]
  · simp only [hff, if_false] at h
    by_cases hsx : status = 0xF0 ∨ status = 0xF7
    · simp only [hsx, if_true] at h
      cases hv : decode_varint d 0 with
      | none => simp [hv] at h
      | some r =>
        obtain ⟨len, d2⟩ := r
        simp only [hv] at h
        cases ht : take_bytes len d2 with
        | none => simp [ht] at h
        | some r2 =>
          obtain ⟨data, d3⟩ := r2
          simp only [ht, Option.some.injEq, Prod.mk.injEq] at h
          obtain ⟨rfl, rfl⟩ := h
          have l1 := decode_varint_length _ _ _ _ hv
          have l2 := take_bytes_length _ _ _ _ ht
          refine ⟨by omega, fun t => ?_⟩
          unfold decode_payload
          simp only [hff, if_false, hsx, if_true, decode_varint_append t _ _ _ _ hv,
            take_bytes_append _ _ _ _ t ht]
    · simp only [hsx, if_false] at h
      by_cases hk : status >>> 4 = 0xC ∨ status >>> 4 = 0xD
      · simp only [hk, if_true] at h
        cases d with
        | nil => simp at h
        | cons b1 d0 =>
          simp only at h
          refine ⟨?_, fun t => ?_⟩
          · split at h <;>
              (simp only [Option.some.injEq, Prod.mk.injEq] at h
               rw [← h.2]
               simp only [List.length_cons]
               omega)
          · unfold decode_payload
            simp only [hff, if_false, hsx, hk, if_true, List.cons_append]
            split at h <;> rename_i hc <;>
              (simp only [Option.some.injEq, Prod.mk.injEq] at h
               simp [hc, h.1, ← h.2])
      · simp only [hk, if_false] at h
        cases d with
        | nil => simp at h
        | cons b1 d0 =>
          cases d0 with
          | nil => simp at h
          | cons b2 d2 =>
            simp only at h
            have hlen : d2 = d1 := by
              (repeat' split at h) <;> simp_all
            subst hlen
            refine ⟨by simp only [List.length_cons]; omega, fun t => ?_⟩
            unfold decode_payload
            simp only [hff, if_false, hsx, hk, List.cons_append]
            (repeat' split at h) <;> simp_all


theorem decode_event_spec (rs : Option Nat) (d : List Nat) (e : Event) (rs1 : Option Nat)
    (d1 : List Nat) (h : decode_event rs d = some (e, rs1, d1)) :
    d1.length < d.length ∧ ∀ t, decode_event rs (d ++ t) = some (e, rs1, d1 ++ t) := by
  unfold decode_event at h
  cases hv : decode_varint d 0 with
  | none => simp [hv] at h
  | some r =>
    obtain ⟨dt, d0⟩ := r
    simp only [hv] at h
    have l1 := decode_varint_length _ _ _ _ hv
    cases d0 with
    | nil => simp at h
    | cons b d2 =>
      simp only at h
      by_cases hb : b < 0x80
      · simp only [hb, if_true] at h
        cases rs with
        | none => simp at h
        | some status =>
          simp only at h
          cases hp : decode_payload dt status (b :: d2) with
          | none => simp [hp] at h
          | some r2 =>
            obtain ⟨e2, d3⟩ := r2
            simp only [hp, Option.some.injEq, Prod.mk.injEq] at h
            obtain ⟨rfl, rfl, rfl⟩ := h
            obtain ⟨l2, happ⟩ := decode_payload_spec _ _ _ _ _ hp
            refine ⟨by omega, fun t => ?_⟩
            unfold decode_event
            have := happ t
            simp only [List.cons_append] at this
            simp only [decode_varint_append t _ _ _ _ hv, List.cons_append, hb, if_true, this]
      · simp only [hb, if_false] at h
        cases hp : decode_payload dt b d2 with
        | none => simp [hp] at h
        | some r2 =>
          obtain ⟨e2, d3⟩ := r2
          simp only [hp, Option.some.injEq, Prod.mk.injEq] at h
          obtain ⟨rfl, rfl, rfl⟩ := h
          obtain ⟨l2, happ⟩ := decode_payload_spec _ _ _ _ _ hp
          refine ⟨by simp only [List.length_cons] at l1; omega, fun t => ?_⟩
          unfold decode_event
          simp only [decode_varint_append t _ _ _ _ hv, List.cons_append, hb, if_false, happ t]

theorem TrackDecodes.append (t : List Nat) {rs : Option Nat} {d : List Nat}
    {evs : List Event} {rest : List Nat} (h : TrackDecodes rs d evs rest) :
    TrackDecodes rs (d ++ t) evs (rest ++ t) := by
  induction h with
  | last rs d e rs1 rest hd he =>
    exact TrackDecodes.last rs _ e rs1 _ ((decode_event_spec _ _ _ _ _ hd).2 t) he
  | step rs d e rs1 d1 es rest hd he _ ih =>
    exact TrackDecodes.step rs _ e rs1 _ es _ ((decode_event_spec _ _ _ _ _ hd).2 t) he ih

theorem TrackDecodes.shape {rs : Option Nat} {d : List Nat} {evs : List Event}
    {rest : List Nat} (h : TrackDecodes rs d evs rest) :
    ∃ pre e, evs = pre ++ [e] ∧ e.is_end_of_track = true ∧
      ∀ x ∈ pre, x.is_end_of_track = false := by
  induction h with
  | last rs d e rs1 rest hd he => exact ⟨[], e, rfl, he, by simp⟩
  | step rs d e rs1 d1 es rest hd he _ ih =>
    obtain ⟨pre, l, hes, hl, hpre⟩ := ih
    refine ⟨e :: pre, l, by simp [hes], hl, ?_⟩
    intro x hx
    rcases List.mem_cons.mp hx with rfl | hx
    · exact he
    · exact hpre x hx

theorem read_events_of_decodes {rs : Option Nat} {d : List Nat} {evs : List Event}
    {rest : List Nat} (h : TrackDecodes rs d evs rest) :
    ∀ fuel, d.length ≤ fuel → read_events fuel rs d = (true, evs, rest) := by
  induction h with
  | last rs d e rs1 rest hd he =>
    intro fuel hf
    have hl := (decode_event_spec _ _ _ _ _ hd).1
    obtain ⟨f, rfl⟩ : ∃ f, fuel = f + 1 := ⟨fuel - 1, by omega⟩
    simp [read_events, hd, he]
  | step rs d e rs1 d1 es rest hd he _ ih =>
    intro fuel hf
    have hl := (decode_event_spec _ _ _ _ _ hd).1
    obtain ⟨f, rfl⟩ : ∃ f, fuel = f + 1 := ⟨fuel - 1, by omega⟩
    simp [read_events, hd, he, ih f (by omega)]

theorem read_mtrk_eval (l0 l1 l2 l3 : Nat) (body : List Nat) :
    read_mtrk ⟨0x4d :: 0x54 :: 0x72 :: 0x6b :: l0 :: l1 :: l2 :: l3 :: body, false⟩
      = ((read_events body.length none body).1, (read_events body.length none body).2.1,
          ⟨(read_events body.length none body).2.2, !(read_events body.length none body).1⟩) := by
  simp [read_mtrk, read_header_eval, header_id, MTrk_id]

/-! ## Claims about `read_mtrk` -/

/-- C20: termination fidelity.  When the body of an `MTrk` chunk decodes into
events of which the last, and only the last, is a meta event of type `0x2F`,
then for every declared length `l0 l1 l2 l3` and whatever bytes `tail` follow
that event, `read_mtrk` returns true, has forwarded exactly those events, and
leaves the stream good with exactly `tail` in it: no byte after the end of
track is read. -/
theorem read_mtrk_stops_at_end_of_track (body : List Nat) (evs : List Event)
    (hdec : TrackDecodes none body evs []) (l0 l1 l2 l3 : Nat) (tail : List Nat) :
    read_mtrk ⟨MTrk_id ++ [l0, l1, l2, l3] ++ body ++ tail, false⟩
      = (true, evs, ⟨tail, false⟩) ∧
    ∃ pre e, evs = pre ++ [e] ∧ e.is_end_of_track = true ∧
      ∀ x ∈ pre, x.is_end_of_track = false := by
  refine ⟨?_, hdec.shape⟩
  have h := read_events_of_decodes (hdec.append tail) (body ++ tail).length (le_refl _)
  simp only [List.nil_append] at h
  simp only [MTrk_id, List.cons_append, List.nil_append, List.append_assoc]
  rw [read_mtrk_eval, h]
  simp

/-- C20 on the track `note on, note off, end of track` of the tests with a
declared length of 13 instead of 12 and three more bytes after the end of
track: the call returns true with the three events and leaves the three
bytes. -/
theorem read_mtrk_stops_at_end_of_track_witness :
    read_mtrk ⟨MTrk_id ++ [0x00, 0x00, 0x00, 13]
        ++ [0, 0x90, 0, 0, 10, 0x80, 0, 0, 0x00, 0xFF, 0x2F, 0x00] ++ [0x4d, 0x54, 0x72], false⟩
      = (true, [.note_on 0 0 0 0, .note_off 10 0 0 0, .meta 0 0x2F []],
          ⟨[0x4d, 0x54, 0x72], false⟩) ∧
    ∃ pre e, [Event.note_on 0 0 0 0, .note_off 10 0 0 0, .meta 0 0x2F []] = pre ++ [e] ∧
      e.is_end_of_track = true ∧ ∀ x ∈ pre, x.is_end_of_track = false :=
  read_mtrk_stops_at_end_of_track [0, 0x90, 0, 0, 10, 0x80, 0, 0, 0x00, 0xFF, 0x2F, 0x00]
    [.note_on 0 0 0 0, .note_off 10 0 0 0, .meta 0 0x2F []]
    (.step none _ _ (some 0x90) [10, 0x80, 0, 0, 0x00, 0xFF, 0x2F, 0x00] _ _ (by decide)
      (by decide)
      (.step _ _ _ (some 0x80) [0x00, 0xFF, 0x2F, 0x00] _ _ (by decide) (by decide)
        (.last _ _ _ (some 0x80) _ (by decide) (by decide))))
    0x00 0x00 0x00 13 [0x4d, 0x54, 0x72]


/-! ## Further claims about `read_byte`, `header_id` and variable-length integers -/

/-- C26: for every good, non-empty stream, `read_byte` returns the first
remaining byte, a value below 256, and advances the stream by exactly one byte;
the later bytes take no part in the value. -/
theorem read_byte_first (b : Nat) (rest : List Nat) (hb : b < 256) :
    read_byte ⟨b :: rest, false⟩ = Except.ok (b, ⟨rest, false⟩) ∧
    (∃ v s, read_byte ⟨b :: rest, false⟩ = Except.ok (v, s) ∧ v < 256 ∧
      s.data.length + 1 = (b :: rest).length ∧ s.fail = false) ∧
    ∀ rest2, ∃ s2, read_byte ⟨b :: rest2, false⟩ = Except.ok (b, s2) := by
  refine ⟨read_byte_cons b rest, ⟨b, ⟨rest, false⟩, read_byte_cons b rest, hb, rfl, rfl⟩, ?_⟩
  intro rest2
  exact ⟨⟨rest2, false⟩, read_byte_cons b rest2⟩

/-- C26 on the last buffer of 03-read-byte-tests.cpp, `{0x12, 0x34, 0x56, 0x78}`. -/
theorem read_byte_first_witness :
    read_byte ⟨[0x12, 0x34, 0x56, 0x78], false⟩
      = Except.ok (0x12, ⟨[0x34, 0x56, 0x78], false⟩) :=
  (read_byte_first 0x12 [0x34, 0x56, 0x78] (by decide)).1

/-- C27: for every `CHUNK_HEADER`, `header_id` is the string of exactly the four
id characters in order, and it does not depend on `size`. -/
theorem header_id_is_id (a b c d size size2 : Nat) :
    header_id ⟨(a, b, c, d), size⟩ = [a, b, c, d] ∧
    header_id ⟨(a, b, c, d), size2⟩ = header_id ⟨(a, b, c, d), size⟩ := by
  simp [header_id]

/-- C27 on the three headers of 06-header-id-tests.cpp: the ids `MThd`, `MTrk`
and `abcd` come back unchanged, whatever the size. -/
theorem header_id_is_id_witness :
    header_id ⟨(0x4d, 0x54, 0x68, 0x64), 0⟩ = MThd_id ∧
    header_id ⟨(0x4d, 0x54, 0x72, 0x6b), 111⟩ = MTrk_id ∧
    header_id ⟨(0x61, 0x62, 0x63, 0x64), 78651⟩ = [0x61, 0x62, 0x63, 0x64] :=
  ⟨(header_id_is_id 0x4d 0x54 0x68 0x64 0 0).1, (header_id_is_id 0x4d 0x54 0x72 0x6b 111 0).1,
    (header_id_is_id 0x61 0x62 0x63 0x64 78651 0).1⟩

/-- C28: `read_variable_length_integer` performs no upper-bound check.  For every
terminated encoding of `n ≥ 5` bytes it returns a value, the sum of
`(b_i AND 0x7F) * 128^(n-i)` reduced modulo `2^32`, and the stream stays good. -/
theorem read_variable_length_integer_wraps (fuel : Nat) (bs : List Nat) (last : Nat)
    (rest : List Nat) (hn : 5 ≤ bs.length + 1) (hbs : ∀ b ∈ bs, 128 ≤ b ∧ b < 256)
    (hlast : last < 128) (hf : bs.length ≤ fuel) :
    read_variable_length_integer fuel ⟨bs ++ last :: rest, false⟩
      = some (Except.ok (vli_sum (bs ++ [last]) % 2 ^ 32, ⟨rest, false⟩)) ∧
    2 ^ 28 ≤ 128 ^ (bs.length + 1) := by
  refine ⟨?_, ?_⟩
  · rw [rvli_terminated_acc fuel bs last rest hbs hlast hf, vli_acc_zero]
  · calc 2 ^ 28 = 128 ^ 4 := by norm_num
      _ ≤ 128 ^ (bs.length + 1) := Nat.pow_le_pow_right (by norm_num) (by omega)

/-- C28 on two 5-byte encodings: `{0x90,0x80,0x80,0x80,0x00}` encodes `2^32` and
decodes to 0, `{0xFF,0xFF,0xFF,0xFF,0x7F}` encodes `2^35 - 1` and decodes to
`0xFFFFFFFF`. -/
theorem read_variable_length_integer_wraps_witness :
    read_variable_length_integer 4 ⟨[0x90, 0x80, 0x80, 0x80, 0x00], false⟩
      = some (Except.ok (0, ⟨[], false⟩)) ∧
    read_variable_length_integer 4 ⟨[0xFF, 0xFF, 0xFF, 0xFF, 0x7F], false⟩
      = some (Except.ok (0xFFFFFFFF, ⟨[], false⟩)) :=
  ⟨(read_variable_length_integer_wraps 4 [0x90, 0x80, 0x80, 0x80] 0x00 [] (by decide)
      (by decide) (by decide) (by decide)).1,
    (read_variable_length_integer_wraps 4 [0xFF, 0xFF, 0xFF, 0xFF] 0x7F [] (by decide)
      (by decide) (by decide) (by decide)).1⟩

/-- C29: for every terminated encoding of `n ≤ 4` bytes, the value returned by
`read_variable_length_integer` is the unreduced sum of the groups and is
strictly below `2^(7n)`, hence below `2^28`: no 32-bit overflow occurs. -/
theorem read_variable_length_integer_bound (fuel : Nat) (bs : List Nat) (last : Nat)
    (rest : List Nat) (hn : bs.length + 1 ≤ 4) (hbs : ∀ b ∈ bs, 128 ≤ b ∧ b < 256)
    (hlast : last < 128) (hf : bs.length ≤ fuel) :
    ∃ v, read_variable_length_integer fuel ⟨bs ++ last :: rest, false⟩
        = some (Except.ok (v, ⟨rest, false⟩)) ∧
      v < 2 ^ (7 * (bs.length + 1)) ∧ 2 ^ (7 * (bs.length + 1)) ≤ 2 ^ 28 := by
  refine ⟨vli_sum (bs ++ [last]), ?_, ?_, ?_⟩
  · rw [rvli_terminated_acc fuel bs last rest hbs hlast hf,
      vli_acc_zero_short _ (by simpa using hn)]
  · have h := vli_sum_lt (bs ++ [last])
    have e : (128 : Nat) ^ (bs ++ [last]).length = 2 ^ (7 * (bs.length + 1)) := by
      rw [List.length_append, List.length_singleton, pow_mul]
      norm_num
    rw [e] at h
    exact h
  · exact Nat.pow_le_pow_right (by norm_num) (by omega)

/-- C29 on a one-byte and a four-byte encoding: `{0x7F}` gives 127 and
`{0xFF,0xFF,0xFF,0x7F}` gives `0x0FFFFFFF`, the largest values of their
lengths. -/
theorem read_variable_length_integer_bound_witness :
    (∃ v, read_variable_length_integer 0 ⟨[] ++ 0x7F :: [], false⟩
        = some (Except.ok (v, ⟨[], false⟩)) ∧
      v < 2 ^ (7 * (([] : List Nat).length + 1)) ∧
      2 ^ (7 * (([] : List Nat).length + 1)) ≤ 2 ^ 28) ∧
    read_variable_length_integer 0 ⟨[0x7F], false⟩ = some (Except.ok (127, ⟨[], false⟩)) ∧
    read_variable_length_integer 3 ⟨[0xFF, 0xFF, 0xFF, 0x7F], false⟩
      = some (Except.ok (0x0FFFFFFF, ⟨[], false⟩)) :=
  ⟨read_variable_length_integer_bound 0 [] 0x7F [] (by decide) (by decide) (by decide)
      (by decide),
    by decide, by decide⟩

/-- C30: `read_variable_length_integer` accepts non-canonical encodings.  For
every terminated encoding `s` of at most 3 bytes, the longer sequence `0x80`
followed by `s` is a different byte sequence that decodes to the same value as
`s`; so the decoder is not injective on byte sequences. -/
theorem read_variable_length_integer_leading_zero_group (fuel : Nat) (bs : List Nat)
    (last : Nat) (rest : List Nat) (hn : bs.length + 1 ≤ 3)
    (hbs : ∀ b ∈ bs, 128 ≤ b ∧ b < 256) (hlast : last < 128) (hf : bs.length + 1 ≤ fuel) :
    0x80 :: (bs ++ [last]) ≠ bs ++ [last] ∧
    ∃ v, read_variable_length_integer fuel ⟨bs ++ last :: rest, false⟩
        = some (Except.ok (v, ⟨rest, false⟩)) ∧
      read_variable_length_integer fuel ⟨0x80 :: (bs ++ last :: rest), false⟩
        = some (Except.ok (v, ⟨rest, false⟩)) ∧
      v < 2 ^ 21 := by
  constructor
  · intro h
    have := congrArg List.length h
    simp at this
  · have hshort : vli_acc 0 (bs ++ [last]) = vli_sum (bs ++ [last]) :=
      vli_acc_zero_short _ (by simp; omega)
    refine ⟨vli_sum (bs ++ [last]), ?_, ?_, ?_⟩
    · rw [rvli_terminated_acc fuel bs last rest hbs hlast (by omega), hshort]
    · have hbs2 : ∀ b ∈ 0x80 :: bs, 128 ≤ b ∧ b < 256 := by
        intro b hb
        rcases List.mem_cons.mp hb with rfl | hb
        · exact ⟨by norm_num, by norm_num⟩
        · exact hbs b hb
      have h := rvli_terminated_acc fuel (0x80 :: bs) last rest hbs2 hlast
        (by simpa using hf)
      have e : (0x80 &&& 0x7f : Nat) = 0 := by decide
      rw [List.cons_append] at h
      rw [h, List.cons_append, vli_acc_zero_cons, e, hshort]
    · have h := vli_sum_lt (bs ++ [last])
      have h2 : 128 ^ (bs ++ [last]).length ≤ 128 ^ 3 :=
        Nat.pow_le_pow_right (by norm_num) (by simp; omega)
      have h3 : (128 : Nat) ^ 3 = 2 ^ 21 := by norm_num
      omega

/-- C30 on `{0x80, 0x00}` and `{0x00}`, which both decode to 0. -/
theorem read_variable_length_integer_leading_zero_group_witness :
    ([0x80, 0x00] : List Nat) ≠ [0x00] ∧
    read_variable_length_integer 1 ⟨[0x00], false⟩ = some (Except.ok (0, ⟨[], false⟩)) ∧
    read_variable_length_integer 1 ⟨[0x80, 0x00], false⟩ = some (Except.ok (0, ⟨[], false⟩)) ∧
    ∃ v, read_variable_length_integer 1 ⟨[] ++ 0x00 :: [], false⟩
        = some (Except.ok (v, ⟨[], false⟩)) ∧
      read_variable_length_integer 1 ⟨0x80 :: ([] ++ 0x00 :: []), false⟩
        = some (Except.ok (v, ⟨[], false⟩)) ∧
      v < 2 ^ 21 :=
  ⟨by decide, by decide, by decide,
    (read_variable_length_integer_leading_zero_group 1 [] 0x00 [] (by decide) (by decide)
      (by decide) (by decide)).2⟩

/-! ## Further facts about the track decoder -/

theorem decode_varint_wire :
    ∀ (d : List Nat) (acc v : Nat) (d0 : List Nat), (∀ b ∈ d, b < 256) →
      decode_varint d acc = some (v, d0) →
      ∃ bs last, d = bs ++ last :: d0 ∧ (∀ b ∈ bs, 128 ≤ b ∧ b < 256) ∧ last < 128 ∧
        v = vli_acc acc (bs ++ [last]) := by
  intro d
  induction d with
  | nil => intro acc v d0 _ h; simp [decode_varint] at h
  | cons b rest ih =>
    intro acc v d0 hbytes h
    have hb : b < 256 := hbytes b (List.mem_cons_self _ _)
    simp only [decode_varint] at h
    split at h
    · rename_i hmsb
      obtain ⟨bs, last, hsplit, hbs, hlast, hv⟩ :=
        ih _ _ _ (fun x hx => hbytes x (List.mem_cons_of_mem _ hx)) h
      refine ⟨b :: bs, last, by simp [hsplit], ?_, hlast, ?_⟩
      · intro x hx
        rcases List.mem_cons.mp hx with rfl | hx
        · rw [Nat.shiftRight_eq_div_pow] at hmsb
          norm_num at hmsb
          omega
        · exact hbs x hx
      · rw [hv]; simp [vli_acc]
    · rename_i hmsb
      simp only [Option.some.injEq, Prod.mk.injEq] at h
      refine ⟨[], b, by simp [h.2], by simp, ?_, ?_⟩
      · rw [Nat.shiftRight_eq_div_pow] at hmsb
        norm_num at hmsb
        omega
      · rw [← h.1]; simp [vli_acc]

theorem decode_varint_suffix :
    ∀ (d : List Nat) (acc v : Nat) (d0 : List Nat),
      decode_varint d acc = some (v, d0) → ∃ pre, d = pre ++ d0 := by
  intro d
  induction d with
  | nil => intro acc v d0 h; simp [decode_varint] at h
  | cons b rest ih =>
    intro acc v d0 h
    simp only [decode_varint] at h
    split at h
    · obtain ⟨pre, hpre⟩ := ih _ _ _ h
      exact ⟨b :: pre, by simp [hpre]⟩
    · simp only [Option.some.injEq, Prod.mk.injEq] at h
      exact ⟨[b], by simp [h.2]⟩

theorem take_bytes_eq (n : Nat) (d data d1 : List Nat)
    (h : take_bytes n d = some (data, d1)) : d = data ++ d1 := by
  unfold take_bytes at h
  split at h
  · simp only [Option.some.injEq, Prod.mk.injEq] at h
    rw [← h.1, ← h.2, List.take_append_drop]
  · simp at h

theorem decode_payload_wire (dt status : Nat) (d : List Nat) (e : Event) (d1 : List Nat)
    (h : decode_payload dt status d = some (e, d1)) : e.dt = dt ∧ ∃ eb, d = eb ++ d1 := by
  unfold decode_payload at h
  by_cases hff : status = 0xFF
  · simp only [hff, if_true] at h
    cases d with
    | nil => simp at h
    | cons type d0 =>
      simp only at h
      cases hv : decode_varint d0 0 with
      | none => simp [hv] at h
      | some r =>
        obtain ⟨len, d2⟩ := r
        simp only [hv] at h
        cases ht : take_bytes len d2 with
        | none => simp [ht] at h
        | some r2 =>
          obtain ⟨data, d3⟩ := r2
          simp only [ht, Option.some.injEq, Prod.mk.injEq] at h
          obtain ⟨rfl, rfl⟩ := h
          obtain ⟨pre, hpre⟩ := decode_varint_suffix _ _ _ _ hv
          have hd2 := take_bytes_eq _ _ _ _ ht
          exact ⟨rfl, type :: (pre ++ data), by simp [hpre, hd2]⟩
  · simp only [hff, if_false] at h
    by_cases hsx : status = 0xF0 ∨ status = 0xF7
    · simp only [hsx, if_true] at h
      cases hv : decode_varint d 0 with
      | none => simp [hv] at h
      | some r =>
        obtain ⟨len, d2⟩ := r
        simp only [hv] at h
        cases ht : take_bytes len d2 with
        | none => simp [ht] at h
        | some r2 =>
          obtain ⟨data, d3⟩ := r2
          simp only [ht, Option.some.injEq, Prod.mk.injEq] at h
          obtain ⟨rfl, rfl⟩ := h
          obtain ⟨pre, hpre⟩ := decode_varint_suffix _ _ _ _ hv
          have hd2 := take_bytes_eq _ _ _ _ ht
          exact ⟨rfl, pre ++ data, by simp [hpre, hd2]⟩
    · simp only [hsx, if_false] at h
      by_cases hk : status >>> 4 = 0xC ∨ status >>> 4 = 0xD
      · simp only [hk, if_true] at h
        cases d with
        | nil => simp at h
        | cons b1 d0 =>
          simp only at h
          split at h <;>
            (simp only [Option.some.injEq, Prod.mk.injEq] at h
             obtain ⟨rfl, rfl⟩ := h
             exact ⟨rfl, [b1], rfl⟩)
      · simp only [hk, if_false] at h
        cases d with
        | nil => simp at h
        | cons b1 d0 =>
          cases d0 with
          | nil => simp at h
          | cons b2 d2 =>
            simp only at h
            (repeat' split at h) <;>
              first
              | (simp only [Option.some.injEq, Prod.mk.injEq] at h
                 obtain ⟨rfl, rfl⟩ := h
                 exact ⟨rfl, [b1, b2], rfl⟩)
              | simp at h

theorem decode_event_wire (rs : Option Nat) (d : List Nat) (e : Event) (rs1 : Option Nat)
    (d1 : List Nat) (hbytes : ∀ b ∈ d, b < 256) (h : decode_event rs d = some (e, rs1, d1)) :
    ∃ bs last eb, d = (bs ++ [last]) ++ (eb ++ d1) ∧ (∀ b ∈ bs, 128 ≤ b ∧ b < 256) ∧
      last < 128 ∧ e.dt = vli_acc 0 (bs ++ [last]) := by
  unfold decode_event at h
  cases hv : decode_varint d 0 with
  | none => simp [hv] at h
  | some r =>
    obtain ⟨dt, d0⟩ := r
    simp only [hv] at h
    obtain ⟨bs, last, hsplit, hbs, hlast, hdt⟩ := decode_varint_wire _ _ _ _ hbytes hv
    cases d0 with
    | nil => simp at h
    | cons b d2 =>
      simp only at h
      by_cases hb : b < 0x80
      · simp only [hb, if_true] at h
        cases rs with
        | none => simp at h
        | some status =>
          simp only at h
          cases hp : decode_payload dt status (b :: d2) with
          | none => simp [hp] at h
          | some r2 =>
            obtain ⟨e2, d3⟩ := r2
            simp only [hp, Option.some.injEq, Prod.mk.injEq] at h
            obtain ⟨rfl, _, rfl⟩ := h
            obtain ⟨hedt, eb, heb⟩ := decode_payload_wire _ _ _ _ _ hp
            exact ⟨bs, last, eb, by rw [hsplit, heb]; simp, hbs, hlast, by rw [hedt, hdt]⟩
      · simp only [hb, if_false] at h
        cases hp : decode_payload dt b d2 with
        | none => simp [hp] at h
        | some r2 =>
          obtain ⟨e2, d3⟩ := r2
          simp only [hp, Option.some.injEq, Prod.mk.injEq] at h
          obtain ⟨rfl, _, rfl⟩ := h
          obtain ⟨hedt, eb, heb⟩ := decode_payload_wire _ _ _ _ _ hp
          exact ⟨bs, last, b :: eb, by rw [hsplit, heb]; simp, hbs, hlast, by rw [hedt, hdt]⟩

theorem TrackDecodes.wire {rs : Option Nat} {d : List Nat} {evs : List Event}
    {rest : List Nat} (h : TrackDecodes rs d evs rest) :
    (∀ b ∈ d, b < 256) → WireDeltas d evs rest := by
  induction h with
  | last rs d e rs1 rest hd he =>
    intro hbytes
    obtain ⟨bs, last, eb, hsplit, hbs, hlast, hdt⟩ := decode_event_wire _ _ _ _ _ hbytes hd
    rw [hsplit]
    refine WireDeltas.group _ _ _ _ _ _ ?_ (WireDeltas.done rest)
    intro fuel hf
    rw [List.append_assoc, List.singleton_append,
      rvli_terminated_acc fuel bs last _ hbs hlast (by simp at hf; omega), hdt]
  | step rs d e rs1 d1 es rest hd he _ ih =>
    intro hbytes
    obtain ⟨bs, last, eb, hsplit, hbs, hlast, hdt⟩ := decode_event_wire _ _ _ _ _ hbytes hd
    have hd1 : ∀ b ∈ d1, b < 256 := by
      intro b hb
      apply hbytes b
      rw [hsplit]
      simp [hb]
    rw [hsplit]
    refine WireDeltas.group _ _ _ _ _ _ ?_ (ih hd1)
    intro fuel hf
    rw [List.append_assoc, List.singleton_append,
      rvli_terminated_acc fuel bs last _ hbs hlast (by simp at hf; omega), hdt]

theorem channel_status_kind (st : Nat) (hst : 0x80 ≤ st ∧ st < 0xF0) :
    0x8 ≤ st >>> 4 ∧ st >>> 4 ≤ 0xE := by
  rw [Nat.shiftRight_eq_div_pow]
  norm_num
  omega

/-! ## Further claims about `read_mtrk` -/

/-- C21: running status.  When the byte `b` that follows a delta time is below
`0x80` and the running status is the channel status `st`, the event is decoded
with status `st` and with `b` as its first data byte: the result is the one the
same bytes give with `st` written out before `b`.  The running status itself is
the most recent channel status byte: an explicit status byte `s` replaces it
when `s` is below `0xF0` and leaves it unchanged otherwise (meta and system
exclusive events). -/
theorem running_status_decoding (vb : List Nat) (dt st b : Nat) (rest : List Nat)
    (rs : Option Nat) (hvb : decode_varint vb 0 = some (dt, []))
    (hst : 0x80 ≤ st ∧ st < 0xF0) (hb : b < 0x80) :
    decode_event (some st) (vb ++ b :: rest) = decode_event rs (vb ++ st :: b :: rest) ∧
    decode_event (some st) (vb ++ b :: rest)
      = Option.map (fun r => (r.1, some st, r.2)) (decode_payload dt st (b :: rest)) ∧
    ∀ s e rs1 d1, 0x80 ≤ s → decode_event rs (vb ++ s :: rest) = some (e, rs1, d1) →
      rs1 = if s < 0xF0 then some s else rs := by
  have hv1 := decode_varint_append (b :: rest) _ _ _ _ hvb
  have hv2 := decode_varint_append (st :: b :: rest) _ _ _ _ hvb
  have hk := channel_status_kind st hst
  have hst2 : ¬ st < 0x80 := by omega
  have h1 : decode_event (some st) (vb ++ b :: rest)
      = Option.map (fun r => (r.1, some st, r.2)) (decode_payload dt st (b :: rest)) := by
    unfold decode_event
    simp only [hv1, List.nil_append, hb, if_true]
    cases decode_payload dt st (b :: rest) <;> rfl
  have h2 : decode_event rs (vb ++ st :: b :: rest)
      = Option.map (fun r => (r.1, some st, r.2)) (decode_payload dt st (b :: rest)) := by
    unfold decode_event
    simp only [hv2, List.nil_append, hst2, if_false, hk, and_self, if_true]
    cases decode_payload dt st (b :: rest) <;> rfl
  refine ⟨by rw [h1, h2], h1, ?_⟩
  intro s e rs1 d1 hs h
  have hv3 := decode_varint_append (s :: rest) _ _ _ _ hvb
  have hs2 : ¬ s < 0x80 := by omega
  unfold decode_event at h
  simp only [hv3, List.nil_append, hs2, if_false] at h
  cases hp : decode_payload dt s rest with
  | none => simp [hp] at h
  | some r =>
    simp only [hp, Option.some.injEq, Prod.mk.injEq] at h
    rw [← h.2.1]
    have hiff : (0x8 ≤ s >>> 4 ∧ s >>> 4 ≤ 0xE) ↔ s < 0xF0 := by
      rw [Nat.shiftRight_eq_div_pow]
      norm_num
      omega
    by_cases hlt : s < 0xF0
    · simp [hlt, hiff.mpr hlt]
    · have hn : ¬ (0x8 ≤ s >>> 4 ∧ s >>> 4 ≤ 0xE) := fun h => hlt (hiff.mp h)
      simp [hlt, hn]

/-- C21 on the spec's buffer: note on (dt 0, channel 0, pitch 5, velocity 255)
followed by `{dt 10, pitch 8, velocity 255}` without a status byte decodes to
two note on events on channel 0. -/
theorem running_status_decoding_witness :
    read_mtrk ⟨MTrk_id ++ [0x00, 0x00, 0x00, 11]
        ++ [0, 0x90, 5, 255, 10, 8, 255, 0x00, 0xFF, 0x2F, 0x00], false⟩
      = (true, [.note_on 0 0 5 255, .note_on 10 0 8 255, .meta 0 0x2F []], ⟨[], false⟩) ∧
    decode_event (some 0x90) ([10] ++ 8 :: [255, 0x00, 0xFF, 0x2F, 0x00])
      = decode_event none ([10] ++ 0x90 :: 8 :: [255, 0x00, 0xFF, 0x2F, 0x00]) :=
  ⟨by decide,
    (running_status_decoding [10] 10 0x90 8 [255, 0x00, 0xFF, 0x2F, 0x00] none (by decide)
      (by decide) (by decide)).1⟩

/-- C22: `read_mtrk` forwards each event with the delta time exactly as decoded
from the wire.  For every chunk whose body decodes up to its end of track, the
bytes from the start of the body split into one group per forwarded event, and
the variable-length integer that `read_variable_length_integer` reads at the
start of each group is the delta time of that event. -/
theorem read_mtrk_forwards_wire_deltas (body : List Nat) (evs : List Event)
    (hdec : TrackDecodes none body evs []) (hbytes : ∀ b ∈ body, b < 256)
    (l0 l1 l2 l3 : Nat) (tail : List Nat) (htail : ∀ b ∈ tail, b < 256) :
    WireDeltas (body ++ tail)
      (read_mtrk ⟨MTrk_id ++ [l0, l1, l2, l3] ++ body ++ tail, false⟩).2.1 tail := by
  have hd := hdec.append tail
  simp only [List.nil_append] at hd
  have h := read_events_of_decodes hd (body ++ tail).length (le_refl _)
  have hall : ∀ b ∈ body ++ tail, b < 256 := by
    intro b hb
    rcases List.mem_append.mp hb with hb | hb
    · exact hbytes b hb
    · exact htail b hb
  have hev : (read_mtrk ⟨MTrk_id ++ [l0, l1, l2, l3] ++ body ++ tail, false⟩).2.1 = evs := by
    simp only [MTrk_id, List.cons_append, List.nil_append, List.append_assoc]
    rw [read_mtrk_eval, h]
  rw [hev]
  exact hd.wire hall

/-- C22 on the track with two meta events of 08-event-receiver-tests.cpp, each
one tick after the previous event: the delta times forwarded are 1, 1, 0, not
the absolute ticks 1, 2, 2. -/
theorem read_mtrk_forwards_wire_deltas_witness :
    WireDeltas
      ([1, 0xFF, 0x01, 0x00, 1, 0xFF, 0x02, 0x00, 0x00, 0xFF, 0x2F, 0x00] ++ [])
      (read_mtrk ⟨MTrk_id ++ [0x00, 0x00, 0x00, 12]
        ++ [1, 0xFF, 0x01, 0x00, 1, 0xFF, 0x02, 0x00, 0x00, 0xFF, 0x2F, 0x00] ++ [],
        false⟩).2.1 [] ∧
    (read_mtrk ⟨MTrk_id ++ [0x00, 0x00, 0x00, 12]
        ++ [1, 0xFF, 0x01, 0x00, 1, 0xFF, 0x02, 0x00, 0x00, 0xFF, 0x2F, 0x00] ++ [],
        false⟩).2.1.map Event.dt = [1, 1, 0] :=
  ⟨read_mtrk_forwards_wire_deltas
      [1, 0xFF, 0x01, 0x00, 1, 0xFF, 0x02, 0x00, 0x00, 0xFF, 0x2F, 0x00]
      [.meta 1 0x01 [], .meta 1 0x02 [], .meta 0 0x2F []]
      (.step none _ _ none [1, 0xFF, 0x02, 0x00, 0x00, 0xFF, 0x2F, 0x00] _ _ (by decide)
        (by decide)
        (.step none _ _ none [0x00, 0xFF, 0x2F, 0x00] _ _ (by decide) (by decide)
          (.last none _ _ none _ (by decide) (by decide))))
      (by decide) 0x00 0x00 0x00 12 [] (by decide),
    by decide⟩

/-- C23: a pitch-bend event (status `0xE0` to `0xEF`) carries the value
`(d1 AND 0x7F) + (d2 AND 0x7F) * 128` built from its two data bytes, low 7 bits
from the first and high 7 bits from the second, and that value is below
`2^14`. -/
theorem pitch_bend_value (dt st d1 d2 : Nat) (rest : List Nat)
    (hst : 0xE0 ≤ st ∧ st ≤ 0xEF) :
    decode_payload dt st (d1 :: d2 :: rest)
      = some (.pitch_wheel_change dt (st % 16) ((d1 &&& 0x7F) + (d2 &&& 0x7F) * 128), rest) ∧
    (d1 &&& 0x7F) + (d2 &&& 0x7F) * 128 < 2 ^ 14 := by
  have hk : st >>> 4 = 0xE := by
    rw [Nat.shiftRight_eq_div_pow]; norm_num; omega
  have hch : st &&& 0x0F = st % 16 := Nat.and_pow_two_sub_one_eq_mod st 4
  have h1 : d1 &&& 0x7F < 2 ^ 7 := by rw [and_7f]; norm_num; omega
  have h2 : d2 &&& 0x7F < 128 := by rw [and_7f]; omega
  have hor : (d1 &&& 0x7F) ||| ((d2 &&& 0x7F) <<< 7) = (d1 &&& 0x7F) + (d2 &&& 0x7F) * 128 := by
    rw [Nat.shiftLeft_eq, or_low_field _ _ 7 h1]
    norm_num
  refine ⟨?_, by norm_num at h1 ⊢; omega⟩
  have hff : ¬ st = 0xFF := by omega
  have hsx : ¬ (st = 0xF0 ∨ st = 0xF7) := by omega
  unfold decode_payload
  simp only [hff, hsx, if_false, hk, hch, hor]
  simp

/-- C23 on the data bytes `0x34, 0x12` on channel 15: the value is
`0x34 + 0x12 * 128 = 0x934`, also when the event is read by `read_mtrk`. -/
theorem pitch_bend_value_witness :
    (decode_payload 129 0xEF (0x34 :: 0x12 :: [])
        = some (.pitch_wheel_change 129 (0xEF % 16) ((0x34 &&& 0x7F) + (0x12 &&& 0x7F) * 128), [])
      ∧ (0x34 &&& 0x7F) + (0x12 &&& 0x7F) * 128 < 2 ^ 14) ∧
    read_mtrk ⟨MTrk_id ++ [0x00, 0x00, 0x00, 9]
        ++ [0x81, 0x01, 0xEF, 0x34, 0x12, 0x00, 0xFF, 0x2F, 0x00], false⟩
      = (true, [.pitch_wheel_change 129 15 0x934, .meta 0 0x2F []], ⟨[], false⟩) :=
  ⟨pitch_bend_value 129 0xEF 0x34 0x12 [] (by decide), by decide⟩


/-! ## The multicaster -/

theorem EventMulticaster.receive_independent {σ ω : Type} (g : σ → Event → σ) (e : Event) :
    ∀ (rs : List σ) (w : ω),
      EventMulticaster.receive (fun r w e => (g r e, w)) rs w e
        = (rs.map (fun r => g r e), w) := by
  intro rs
  induction rs with
  | nil => intro w; rfl
  | cons r rs ih => intro w; simp [EventMulticaster.receive, ih]

theorem EventMulticaster.run_independent {σ ω : Type} (g : σ → Event → σ) (evs : List Event) :
    ∀ (rs : List σ) (w : ω),
      EventMulticaster.run (fun r w e => (g r e, w)) rs w evs
        = (rs.map (fun r => evs.foldl g r), w) := by
  induction evs with
  | nil => intro rs w; simp [EventMulticaster.run]
  | cons e evs ih =>
    intro rs w
    have h := ih (rs.map (fun r => g r e)) w
    simp only [EventMulticaster.run, List.foldl_cons] at h ⊢
    rw [EventMulticaster.receive_independent, h]
    simp [List.map_map, Function.comp]

theorem EventMulticaster.receive_log (e : Event) :
    ∀ (ids : List Nat) (log : List (Nat × Event)),
      EventMulticaster.receive log_step ids log e
        = (ids, log ++ ids.map (fun i => (i, e))) := by
  intro ids
  induction ids with
  | nil => intro log; simp [EventMulticaster.receive]
  | cons i ids ih => intro log; simp [EventMulticaster.receive, ih, log_step]

theorem EventMulticaster.run_log (ids : List Nat) (evs : List Event) :
    ∀ (log : List (Nat × Event)),
      EventMulticaster.run log_step ids log evs
        = (ids, log ++ evs.flatMap (fun e => ids.map (fun i => (i, e)))) := by
  induction evs with
  | nil => intro log; simp [EventMulticaster.run]
  | cons e evs ih =>
    intro log
    have h := ih (log ++ ids.map (fun i => (i, e)))
    simp only [EventMulticaster.run, List.foldl_cons] at h ⊢
    rw [EventMulticaster.receive_log, h]
    simp [List.flatMap_cons]

/-! ## Claims about the multicaster -/

/-- C24: the multicaster forwards every call to every held receiver, in
registration order and with identical arguments.  For receivers that keep their
own state, each receiver ends in the state it reaches when it is fed exactly
the sequence of calls itself; and for receivers that log their calls to a common
log, the log holds, event after event, one entry per receiver in registration
order, each with the event of the call.  Events of all nine kinds are treated
alike. -/
theorem multicaster_forwards_all {σ ω : Type} (g : σ → Event → σ) (rs : List σ) (w : ω)
    (ids : List Nat) (evs : List Event) :
    EventMulticaster.run (fun r w e => (g r e, w)) rs w evs
      = (rs.map (fun r => evs.foldl g r), w) ∧
    EventMulticaster.run log_step ids [] evs
      = (ids, evs.flatMap (fun e => ids.map (fun i => (i, e)))) := by
  refine ⟨EventMulticaster.run_independent g evs rs w, ?_⟩
  rw [EventMulticaster.run_log]
  simp

/-- C24 on the tests of 11-multicaster-tests.cpp: two `TestEventReceiver`s that
each expect a note on and a note off are both finished, with every assertion
passed, after the two calls on the multicaster; and two logging receivers 1 and
2 log the calls in the order 1, 2, 1, 2. -/
theorem multicaster_forwards_all_witness :
    ((EventMulticaster.run (fun r (w : Unit) e => (TestEventReceiver.receive r e, w))
        [⟨[.note_on 0 0 0 255, .note_off 10 0 0 255], true, false⟩,
         ⟨[.note_on 0 0 0 255, .note_off 10 0 0 255], true, false⟩] ()
        [.note_on 0 0 0 255, .note_off 10 0 0 255]).1.all TestEventReceiver.finished)
      = true ∧
    (EventMulticaster.run log_step [1, 2] [] [.note_on 0 0 0 255, .note_off 10 0 0 255]).2
      = [(1, .note_on 0 0 0 255), (2, .note_on 0 0 0 255), (1, .note_off 10 0 0 255),
          (2, .note_off 10 0 0 255)] :=
  ⟨by
      rw [(multicaster_forwards_all TestEventReceiver.receive
        [⟨[.note_on 0 0 0 255, .note_off 10 0 0 255], true, false⟩,
         ⟨[.note_on 0 0 0 255, .note_off 10 0 0 255], true, false⟩] ()
        [] [.note_on 0 0 0 255, .note_off 10 0 0 255]).1]
      decide,
    by
      rw [(multicaster_forwards_all (fun (r : Unit) _ => r) [] ()
        [1, 2] [.note_on 0 0 0 255, .note_off 10 0 0 255]).2]
      decide⟩

/-! ## Decoding a track that holds one note -/

theorem decode_varint_terminated (last : Nat) (rest : List Nat) (hlast : last < 128) :
    ∀ (bs : List Nat) (acc : Nat), (∀ b ∈ bs, 128 ≤ b ∧ b < 256) →
      decode_varint (bs ++ last :: rest) acc = some (vli_acc acc (bs ++ [last]), rest) := by
  intro bs
  induction bs with
  | nil =>
    intro acc _
    simp [decode_varint, msb_clear last hlast, vli_acc]
  | cons b bs ih =>
    intro acc hbs
    have hb : 128 ≤ b ∧ b < 256 := hbs b (List.mem_cons_self _ _)
    simp only [List.cons_append, decode_varint, msb_set b hb, if_true]
    have h := ih (((acc <<< 7) % 2 ^ 32) ||| (b &&& 0x7f))
      (fun x hx => hbs x (List.mem_cons_of_mem _ hx))
    exact h.trans (by simp [vli_acc])

theorem decode_varint_encode (x : Nat) (hx : x < 2 ^ 28) (rest : List Nat) :
    decode_varint (vli_encode x ++ rest) 0 = some (x, rest) := by
  obtain ⟨bs, henc, hhigh, hsum, hlen⟩ := vli_encode_spec x
  have h3 : bs.length ≤ 3 := hlen 3 (by norm_num; omega)
  have hlast : x % 128 < 128 := Nat.mod_lt _ (by norm_num)
  rw [henc, List.append_assoc, List.singleton_append,
    decode_varint_terminated _ _ hlast bs 0 hhigh, vli_acc_zero_short _ (by simp; omega), hsum]

theorem decode_event_note_on (rs : Option Nat) (d : List Nat) (dt c p v : Nat)
    (rest : List Nat) (hc : c < 16)
    (hd : decode_varint d 0 = some (dt, (0x90 + c) :: p :: v :: rest)) :
    decode_event rs d = some (.note_on dt c p v, some (0x90 + c), rest) := by
  have hk : (0x90 + c) >>> 4 = 9 := by
    rw [Nat.shiftRight_eq_div_pow]; norm_num; omega
  have hch : (0x90 + c) &&& 0x0F = c := by
    rw [Nat.and_pow_two_sub_one_eq_mod (0x90 + c) 4]; norm_num; omega
  have h1 : ¬ 0x90 + c < 0x80 := by omega
  have h2 : ¬ 0x90 + c = 0xFF := by omega
  have h3 : ¬ (0x90 + c = 0xF0 ∨ 0x90 + c = 0xF7) := by omega
  unfold decode_event
  simp only [hd, h1, if_false]
  unfold decode_payload
  simp [h2, h3, hk, hch]

theorem decode_event_note_off (rs : Option Nat) (d : List Nat) (dt c p v : Nat)
    (rest : List Nat) (hc : c < 16)
    (hd : decode_varint d 0 = some (dt, (0x80 + c) :: p :: v :: rest)) :
    decode_event rs d = some (.note_off dt c p v, some (0x80 + c), rest) := by
  have hk : (0x80 + c) >>> 4 = 8 := by
    rw [Nat.shiftRight_eq_div_pow]; norm_num; omega
  have hch : (0x80 + c) &&& 0x0F = c := by
    rw [Nat.and_pow_two_sub_one_eq_mod (0x80 + c) 4]; norm_num; omega
  have h1 : ¬ 0x80 + c < 0x80 := by omega
  have h2 : ¬ 0x80 + c = 0xFF := by omega
  have h3 : ¬ (0x80 + c = 0xF0 ∨ 0x80 + c = 0xF7) := by omega
  unfold decode_event
  simp only [hd, h1, if_false]
  unfold decode_payload
  simp [h2, h3, hk, hch]

theorem decode_event_end_of_track (rs : Option Nat) (rest : List Nat) :
    decode_event rs (0x00 :: 0xFF :: 0x2F :: 0x00 :: rest) = some (.meta 0 0x2F [], rs, rest) := by
  simp [decode_event, decode_varint, decode_payload, take_bytes]

theorem NotePairTrack.decodes (t : NotePairTrack) (ht : t.valid) (rest : List Nat) :
    TrackDecodes none
      (vli_encode t.don ++ [0x90 + t.c, t.p, t.v] ++
        (vli_encode t.doff ++ [0x80 + t.c, t.p, t.w] ++ [0x00, 0xFF, 0x2F, 0x00]) ++ rest)
      [.note_on t.don t.c t.p t.v, .note_off t.doff t.c t.p t.w, .meta 0 0x2F []] rest := by
  obtain ⟨hc, _, hon, hoff⟩ := ht
  refine TrackDecodes.step none _ _ (some (0x90 + t.c))
    (vli_encode t.doff ++ (0x80 + t.c) :: t.p :: t.w :: 0x00 :: 0xFF :: 0x2F :: 0x00 :: rest)
    _ _ ?_ rfl ?_
  · apply decode_event_note_on _ _ _ _ _ _ _ hc
    have := decode_varint_encode t.don hon
      ((0x90 + t.c) :: t.p :: t.v ::
        (vli_encode t.doff ++ (0x80 + t.c) :: t.p :: t.w :: 0x00 :: 0xFF :: 0x2F :: 0x00 :: rest))
    simpa using this
  · refine TrackDecodes.step _ _ _ (some (0x80 + t.c)) (0x00 :: 0xFF :: 0x2F :: 0x00 :: rest)
      _ _ ?_ rfl ?_
    · apply decode_event_note_off _ _ _ _ _ _ _ hc
      exact decode_varint_encode t.doff hoff _
    · exact TrackDecodes.last _ _ _ _ _ (decode_event_end_of_track _ rest) rfl

theorem NotePairTrack.read_mtrk_eq (t : NotePairTrack) (ht : t.valid) (rest : List Nat) :
    read_mtrk ⟨t.bytes ++ rest, false⟩
      = (true, [.note_on t.don t.c t.p t.v, .note_off t.doff t.c t.p t.w, .meta 0 0x2F []],
          ⟨rest, false⟩) := by
  have h := read_events_of_decodes (t.decodes ht rest) _ (le_refl _)
  simp only [NotePairTrack.bytes, MTrk_id, List.cons_append, List.nil_append,
    List.append_assoc] at h ⊢
  rw [read_mtrk_eval, h]
  simp

/-! ## A multicaster over note filters -/

theorem EventMulticaster.receive_append {σ ω : Type} (step : σ → ω → Event → σ × ω)
    (e : Event) :
    ∀ (as bs : List σ) (w : ω),
      EventMulticaster.receive step (as ++ bs) w e
        = ((EventMulticaster.receive step as w e).1
            ++ (EventMulticaster.receive step bs (EventMulticaster.receive step as w e).2 e).1,
          (EventMulticaster.receive step bs (EventMulticaster.receive step as w e).2 e).2) := by
  intro as
  induction as with
  | nil => intro bs w; simp [EventMulticaster.receive]
  | cons a as ih => intro bs w; simp [EventMulticaster.receive, ih]

theorem EventMulticaster.receive_channels (e : Event) :
    ∀ (fs : List NoteFilter) (notes : List NOTE),
      (EventMulticaster.receive NoteFilter.receive fs notes e).1.map NoteFilter.channel
        = fs.map NoteFilter.channel := by
  intro fs
  induction fs with
  | nil => intro notes; rfl
  | cons f fs ih =>
    intro notes
    simp [EventMulticaster.receive, ih, NoteFilter.receive_channel]

theorem EventMulticaster.receive_others (e : Event) :
    ∀ (fs : List NoteFilter) (notes : List NOTE),
      (∀ ch ∈ fs.map NoteFilter.channel, e.is_note_on_channel ch = false) →
      (EventMulticaster.receive NoteFilter.receive fs notes e).2 = notes := by
  intro fs
  induction fs with
  | nil => intro notes _; rfl
  | cons f fs ih =>
    intro notes h
    have hf : e.is_note_on_channel f.channel = false := h f.channel (by simp)
    simp only [EventMulticaster.receive, NoteFilter.receive_other_channel f notes e hf]
    exact ih notes (fun ch hch => h ch (by simp only [List.map_cons, List.mem_cons]; exact Or.inr hch))

theorem EventMulticaster.run_one_channel (evs : List Event) :
    ∀ (pre : List NoteFilter) (fc : NoteFilter) (post : List NoteFilter) (notes : List NOTE),
      (∀ e ∈ evs, ∀ ch ∈ (pre ++ post).map NoteFilter.channel,
        e.is_note_on_channel ch = false) →
      (EventMulticaster.run NoteFilter.receive (pre ++ fc :: post) notes evs).2
        = (fc.run notes evs).2 := by
  induction evs with
  | nil => intro pre fc post notes _; rfl
  | cons e evs ih =>
    intro pre fc post notes h
    have he := h e (List.mem_cons_self _ _)
    have hpre : (EventMulticaster.receive NoteFilter.receive pre notes e).2 = notes :=
      EventMulticaster.receive_others e pre notes
        (fun ch hch => he ch (by simp only [List.map_append, List.mem_append]; exact Or.inl hch))
    have hpost : ∀ n, (EventMulticaster.receive NoteFilter.receive post n e).2 = n :=
      fun n => EventMulticaster.receive_others e post n
        (fun ch hch => he ch (by simp only [List.map_append, List.mem_append]; exact Or.inr hch))
    have hstep : EventMulticaster.receive NoteFilter.receive (pre ++ fc :: post) notes e
        = ((EventMulticaster.receive NoteFilter.receive pre notes e).1
            ++ (fc.receive notes e).1
              :: (EventMulticaster.receive NoteFilter.receive post (fc.receive notes e).2 e).1,
          (fc.receive notes e).2) := by
      rw [EventMulticaster.receive_append, hpre]
      simp only [EventMulticaster.receive, hpost]
    have hrun : EventMulticaster.run NoteFilter.receive (pre ++ fc :: post) notes (e :: evs)
        = EventMulticaster.run NoteFilter.receive
            ((EventMulticaster.receive NoteFilter.receive pre notes e).1
              ++ (fc.receive notes e).1
                :: (EventMulticaster.receive NoteFilter.receive post (fc.receive notes e).2 e).1)
            (fc.receive notes e).2 evs := by
      simp only [EventMulticaster.run, List.foldl_cons, hstep]
    rw [hrun, NoteFilter.run_cons, ih]
    intro x hx ch hch
    apply h x (List.mem_cons_of_mem _ hx) ch
    simpa only [List.map_append, EventMulticaster.receive_channels] using hch

theorem range_split (c : Nat) (hc : c < 16) :
    List.range 16 = List.range c ++ c :: List.range' (c + 1) (15 - c) := by
  interval_cases c <;> decide

theorem NoteFilter.run_pair_end (c p v w don doff : Nat) (notes : List NOTE) (hv : 0 < v)
    (hdon : don < 2 ^ 32) (hdoff : doff < 2 ^ 32) :
    ((NoteFilter.create c).run notes
        [.note_on don c p v, .note_off doff c p w, .meta 0 0x2F []]).2
      = notes ++ [⟨c, p, don, doff⟩] := by
  have hv0 : v ≠ 0 := by omega
  simp [NoteFilter.run, NoteFilter.receive, NoteFilter.close, NoteFilter.create, Event.dt, hv0]
  omega

theorem multicast_note_pair (c p v w don doff : Nat) (notes : List NOTE) (hc : c < 16)
    (hv : 0 < v) (hdon : don < 2 ^ 32) (hdoff : doff < 2 ^ 32) :
    (EventMulticaster.run NoteFilter.receive ((List.range 16).map NoteFilter.create) notes
        [.note_on don c p v, .note_off doff c p w, .meta 0 0x2F []]).2
      = notes ++ [⟨c, p, don, doff⟩] := by
  rw [range_split c hc, List.map_append, List.map_cons, EventMulticaster.run_one_channel,
    NoteFilter.run_pair_end c p v w don doff notes hv hdon hdoff]
  intro e he ch hch
  have hne : ch ≠ c := by
    simp only [List.map_append, List.map_map, List.mem_append, List.mem_map,
      Function.comp_apply, List.mem_range, List.mem_range'_1] at hch
    rcases hch with ⟨i, hi, rfl⟩ | ⟨i, hi, rfl⟩
    · simp only [NoteFilter.create]; omega
    · simp only [NoteFilter.create]; omega
  simp only [List.mem_cons, List.mem_singleton, List.not_mem_nil, or_false] at he
  rcases he with rfl | rfl | rfl
  · simp [Event.is_note_on_channel, Ne.symm hne]
  · simp [Event.is_note_on_channel, Ne.symm hne]
  · simp [Event.is_note_on_channel]

theorem read_tracks_note_pair (n : Nat) (t : NotePairTrack) (ht : t.valid)
    (rest : List Nat) (notes : List NOTE) :
    read_tracks (n + 1) ⟨t.bytes ++ rest, false⟩ notes
      = read_tracks n ⟨rest, false⟩ (notes ++ [t.note]) := by
  obtain ⟨hc, hv, hdon, hdoff⟩ := id ht
  have hdon2 : t.don < 2 ^ 32 := lt_trans hdon (by norm_num)
  have hdoff2 : t.doff < 2 ^ 32 := lt_trans hdoff (by norm_num)
  simp only [read_tracks, NotePairTrack.read_mtrk_eq t ht rest,
    multicast_note_pair t.c t.p t.v t.w t.don t.doff notes hc hv hdon2 hdoff2,
    NotePairTrack.note]
  simp

/-! ## Claims about `read_notes` -/

/-- C25: end-to-end aggregation.  For a complete file whose `MThd` chunk declares
2 tracks, each track holding one note on, its note off and the end of track,
`read_notes` returns true, appends exactly the 2 notes to the vector, each with
the start and duration counted from the beginning of its own track, and leaves
the stream at the end of the second track. -/
theorem read_notes_two_tracks (s0 s1 s2 s3 t0 t1 v0 v1 : Nat) (a b : NotePairTrack)
    (ha : a.valid) (hb : b.valid) (tail : List Nat) (notes : List NOTE) :
    read_notes
        ⟨MThd_id ++ [s0, s1, s2, s3, t0, t1, 0x00, 0x02, v0, v1] ++ a.bytes ++ b.bytes ++ tail,
          false⟩ notes
      = (true, notes ++ [a.note, b.note], ⟨tail, false⟩) := by
  have hn : switch_endianness_u16 (0x00 + 256 * 0x02) = 2 := by
    rw [switch_endianness_u16_bytes 0 2 (by norm_num) (by norm_num)]
  have h1 := read_tracks_note_pair 1 a ha (b.bytes ++ tail) notes
  have h2 := read_tracks_note_pair 0 b hb tail (notes ++ [a.note])
  simp only [read_notes, MThd_id, List.cons_append, List.nil_append, List.append_assoc,
    read_mthd_eval, hn]
  simp only [List.append_assoc] at h1
  simp only [decide_True, Bool.true_eq_false, if_false]
  have h1b : read_tracks 2 ⟨a.bytes ++ (b.bytes ++ tail), false⟩ notes
      = read_tracks 1 ⟨b.bytes ++ tail, false⟩ (notes ++ [a.note]) := h1
  have h2b : read_tracks 1 ⟨b.bytes ++ tail, false⟩ (notes ++ [a.note])
      = read_tracks 0 ⟨tail, false⟩ (notes ++ [a.note] ++ [b.note]) := h2
  rw [h1b, h2b]
  simp [read_tracks]

/-- C25 on the file of the test `read_notes, two notes on different tracks`: both
notes start at 0 and last 100. -/
theorem read_notes_two_tracks_witness :
    read_notes
        ⟨MThd_id ++ [0x00, 0x00, 0x00, 0x06, 0x00, 0x01, 0x00, 0x02, 0x01, 0x00]
          ++ NotePairTrack.bytes ⟨0x00, 0x00, 0x00, 12, 0, 5, 255, 255, 0, 100⟩
          ++ NotePairTrack.bytes ⟨0x00, 0x00, 0x00, 12, 0, 88, 255, 255, 0, 100⟩ ++ [],
          false⟩ []
      = (true, [] ++ [⟨0, 5, 0, 100⟩, ⟨0, 88, 0, 100⟩], ⟨[], false⟩) ∧
    NotePairTrack.bytes ⟨0x00, 0x00, 0x00, 12, 0, 5, 255, 255, 0, 100⟩
      = [0x4d, 0x54, 0x72, 0x6b, 0x00, 0x00, 0x00, 12, 0, 0x90, 5, 255, 100, 0x80, 5, 255,
          0x00, 0xFF, 0x2F, 0x00] :=
  ⟨read_notes_two_tracks 0x00 0x00 0x00 0x06 0x00 0x01 0x01 0x00
      ⟨0x00, 0x00, 0x00, 12, 0, 5, 255, 255, 0, 100⟩
      ⟨0x00, 0x00, 0x00, 12, 0, 88, 255, 255, 0, 100⟩
      ⟨by decide, by decide, by norm_num, by norm_num⟩
      ⟨by decide, by decide, by norm_num, by norm_num⟩ [] [],
    by decide⟩


/-! ## Further claims about `read_header`, `read_mthd`, `switch_endianness` and colors -/

theorem exists_fourteen_of_length (l : List Nat) (h : 14 ≤ l.length) :
    ∃ b0 b1 b2 b3 b4 b5 b6 b7 b8 b9 b10 b11 b12 b13 tl,
      l = b0 :: b1 :: b2 :: b3 :: b4 :: b5 :: b6 :: b7 :: b8 :: b9 :: b10 :: b11 :: b12 :: b13
        :: tl := by
  match l, h with
  | b0 :: b1 :: b2 :: b3 :: b4 :: b5 :: b6 :: b7 :: b8 :: b9 :: b10 :: b11 :: b12 :: b13 :: tl,
    _ => exact ⟨b0, b1, b2, b3, b4, b5, b6, b7, b8, b9, b10, b11, b12, b13, tl, rfl⟩

theorem le_value_le_bytes_u32 (x : Nat) (hx : x < 2 ^ 32) : le_value (le_bytes 4 x) = x := by
  simp only [le_bytes, le_value]
  norm_num at hx ⊢
  omega

theorem switch_endianness_u32_formula (x : Nat) (hx : x < 2 ^ 32) :
    switch_endianness_u32 x
      = x / 2 ^ 24 + 256 * (x / 2 ^ 16 % 256 + 256 * (x / 2 ^ 8 % 256 + 256 * (x % 256))) := by
  have hx2 : x = x % 256 + 256 * (x / 2 ^ 8 % 256 + 256 * (x / 2 ^ 16 % 256
      + 256 * (x / 2 ^ 24))) := by
    norm_num; omega
  have h3 : x / 2 ^ 24 < 256 := by norm_num at hx ⊢; omega
  have key := switch_endianness_u32_bytes (x % 256) (x / 2 ^ 8 % 256) (x / 2 ^ 16 % 256)
    (x / 2 ^ 24) (Nat.mod_lt _ (by norm_num)) (Nat.mod_lt _ (by norm_num))
    (Nat.mod_lt _ (by norm_num)) h3
  rw [← hx2] at key
  exact key

/-- C31: `read_mthd` and `read_header` agree on the chunk header.  For every good
stream with at least 14 bytes, the header that `read_mthd` stores in
`mthd->header` equals the `CHUNK_HEADER` that `read_header` produces from the
same stream, whatever the tag and whatever the two objects held before. -/
theorem read_mthd_header_agrees (data : List Nat) (h14 : 14 ≤ data.length) (mthd : MThd)
    (header : CHUNK_HEADER) :
    (read_mthd ⟨data, false⟩ mthd).2.1.header = (read_header ⟨data, false⟩ header).2.1 := by
  obtain ⟨b0, b1, b2, b3, b4, b5, b6, b7, b8, b9, b10, b11, b12, b13, tl, rfl⟩ :=
    exists_fourteen_of_length data h14
  rw [read_mthd_eval, read_header_eval]

/-- C31 on the first test buffer of 07-read-mthd-tests.cpp: both calls give the
header `MThd` with size 6. -/
theorem read_mthd_header_agrees_witness :
    (read_mthd ⟨[0x4d, 0x54, 0x68, 0x64, 0x00, 0x00, 0x00, 0x06, 0x00, 0x01, 0x00, 0x01,
        0x00, 0x01], false⟩ ⟨⟨(0, 0, 0, 0), 0⟩, 0, 0, 0⟩).2.1.header
      = (read_header ⟨[0x4d, 0x54, 0x68, 0x64, 0x00, 0x00, 0x00, 0x06, 0x00, 0x01, 0x00, 0x01,
          0x00, 0x01], false⟩ ⟨(1, 2, 3, 4), 5⟩).2.1 ∧
    (read_header ⟨[0x4d, 0x54, 0x68, 0x64, 0x00, 0x00, 0x00, 0x06, 0x00, 0x01, 0x00, 0x01,
        0x00, 0x01], false⟩ ⟨(1, 2, 3, 4), 5⟩).2.1 = ⟨(0x4d, 0x54, 0x68, 0x64), 6⟩ :=
  ⟨read_mthd_header_agrees _ (by decide) _ _, by decide⟩

/-- C32: `read_mthd` reads the whole 14-byte structure before it checks the tag.
For every good stream with at least 14 bytes it leaves the stream good and
exactly 14 bytes further on, and it returns true exactly when the first four
bytes are `MThd`; so after a wrong-tag failure the stream is 14 bytes on. -/
theorem read_mthd_consumes_fourteen (data : List Nat) (h14 : 14 ≤ data.length) (mthd : MThd) :
    (read_mthd ⟨data, false⟩ mthd).2.2 = ⟨data.drop 14, false⟩ ∧
    (read_mthd ⟨data, false⟩ mthd).1 = decide (data.take 4 = MThd_id) := by
  obtain ⟨b0, b1, b2, b3, b4, b5, b6, b7, b8, b9, b10, b11, b12, b13, tl, rfl⟩ :=
    exists_fourteen_of_length data h14
  rw [read_mthd_eval]
  simp

/-- C32 on the wrong-id test buffer `MThx...` followed by two more bytes: the
call returns false and leaves exactly the two bytes. -/
theorem read_mthd_consumes_fourteen_witness :
    (read_mthd ⟨[0x4d, 0x54, 0x68, 0x78, 0x00, 0x00, 0x00, 0x06, 0x00, 0x00, 0x00, 0x05,
        0x02, 0x01, 0xAA, 0xBB], false⟩ ⟨⟨(0, 0, 0, 0), 0⟩, 0, 0, 0⟩).2.2
      = ⟨[0xAA, 0xBB], false⟩ ∧
    (read_mthd ⟨[0x4d, 0x54, 0x68, 0x78, 0x00, 0x00, 0x00, 0x06, 0x00, 0x00, 0x00, 0x05,
        0x02, 0x01, 0xAA, 0xBB], false⟩ ⟨⟨(0, 0, 0, 0), 0⟩, 0, 0, 0⟩).1 = false :=
  read_mthd_consumes_fourteen _ (by decide) _

theorem read_header_short (s : IStream) (header : CHUNK_HEADER) (hlen : s.data.length ≤ 4) :
    (read_header s header).1 = false ∧
    (read_header s header).2.1.size
      = switch_endianness_u32 (le_value (le_bytes 4 header.size)) := by
  obtain ⟨data, fail⟩ := s
  cases fail
  · rcases data with _ | ⟨a, _ | ⟨b, _ | ⟨c, _ | ⟨d, _ | ⟨e, tl⟩⟩⟩⟩⟩
    · simp [read_header, read, CHUNK_HEADER.bytes, CHUNK_HEADER.of_bytes, le_bytes]
    · simp [read_header, read, CHUNK_HEADER.bytes, CHUNK_HEADER.of_bytes, le_bytes]
    · simp [read_header, read, CHUNK_HEADER.bytes, CHUNK_HEADER.of_bytes, le_bytes]
    · simp [read_header, read, CHUNK_HEADER.bytes, CHUNK_HEADER.of_bytes, le_bytes]
    · simp [read_header, read, CHUNK_HEADER.bytes, CHUNK_HEADER.of_bytes, le_bytes]
    · simp at hlen
  · simp [read_header, read, CHUNK_HEADER.bytes, CHUNK_HEADER.of_bytes, le_bytes]

/-- C33: `read_header` is not atomic on failure.  For every stream, good or
failed, with at most 4 bytes remaining and every 32-bit value of `header->size`
before the call, the call returns false and leaves `header->size` equal to the
byte reversal of the old value, which differs from the old value whenever that
value is not a byte palindrome. -/
theorem read_header_failure_swaps_size (s : IStream) (header : CHUNK_HEADER)
    (hlen : s.data.length ≤ 4) (hsize : header.size < 2 ^ 32) :
    (read_header s header).1 = false ∧
    (read_header s header).2.1.size = switch_endianness_u32 header.size ∧
    (read_header s header).2.1.size
      = header.size / 2 ^ 24 + 256 * (header.size / 2 ^ 16 % 256
          + 256 * (header.size / 2 ^ 8 % 256 + 256 * (header.size % 256))) ∧
    (¬ (header.size % 256 = header.size / 2 ^ 24 ∧
          header.size / 2 ^ 8 % 256 = header.size / 2 ^ 16 % 256) →
      (read_header s header).2.1.size ≠ header.size) := by
  have hx2 : header.size = header.size % 256 + 256 * (header.size / 2 ^ 8 % 256
      + 256 * (header.size / 2 ^ 16 % 256 + 256 * (header.size / 2 ^ 24))) := by
    norm_num; omega
  have h0 : header.size % 256 < 256 := Nat.mod_lt _ (by norm_num)
  have h1 : header.size / 2 ^ 8 % 256 < 256 := Nat.mod_lt _ (by norm_num)
  have h2 : header.size / 2 ^ 16 % 256 < 256 := Nat.mod_lt _ (by norm_num)
  have h3 : header.size / 2 ^ 24 < 256 := by norm_num at hsize ⊢; omega
  obtain ⟨hres, hsz⟩ := read_header_short s header hlen
  rw [le_value_le_bytes_u32 _ hsize] at hsz
  have hform := switch_endianness_u32_formula _ hsize
  refine ⟨hres, hsz, hsz.trans hform, ?_⟩
  intro hpal heq
  rw [hsz, hform] at heq
  apply hpal
  generalize header.size % 256 = b0 at hx2 heq h0 ⊢
  generalize header.size / 2 ^ 8 % 256 = b1 at hx2 heq h1 ⊢
  generalize header.size / 2 ^ 16 % 256 = b2 at hx2 heq h2 ⊢
  generalize header.size / 2 ^ 24 = b3 at hx2 heq h3 ⊢
  omega

/-- C33 on the three-byte stream `MTh` and a header holding `0x12345678`: the
call fails and the size becomes `0x78563412`. -/
theorem read_header_failure_swaps_size_witness :
    (read_header ⟨[77, 84, 104], false⟩ ⟨(1, 2, 3, 4), 0x12345678⟩).1 = false ∧
    (read_header ⟨[77, 84, 104], false⟩ ⟨(1, 2, 3, 4), 0x12345678⟩).2.1.size = 0x78563412 ∧
    (read_header ⟨[77, 84, 104], false⟩ ⟨(1, 2, 3, 4), 0x12345678⟩).2.1.size ≠ 0x12345678 :=
  have h := read_header_failure_swaps_size ⟨[77, 84, 104], false⟩ ⟨(1, 2, 3, 4), 0x12345678⟩
    (by decide) (by decide)
  ⟨h.1, h.2.2.1.trans (by decide), h.2.2.2 (by decide)⟩

/-- C34: both `switch_endianness` overloads are involutions.  For every 32-bit
`x` and every 16-bit `y`, applying `switch_endianness` twice restores the
original value. -/
theorem switch_endianness_involution (x y : Nat) (hx : x < 2 ^ 32) (hy : y < 2 ^ 16) :
    switch_endianness_u32 (switch_endianness_u32 x) = x ∧
    switch_endianness_u16 (switch_endianness_u16 y) = y := by
  constructor
  · have hx2 : x = x % 256 + 256 * (x / 2 ^ 8 % 256 + 256 * (x / 2 ^ 16 % 256
        + 256 * (x / 2 ^ 24))) := by
      norm_num; omega
    have h0 : x % 256 < 256 := Nat.mod_lt _ (by norm_num)
    have h1 : x / 2 ^ 8 % 256 < 256 := Nat.mod_lt _ (by norm_num)
    have h2 : x / 2 ^ 16 % 256 < 256 := Nat.mod_lt _ (by norm_num)
    have h3 : x / 2 ^ 24 < 256 := by norm_num at hx ⊢; omega
    have k1 := switch_endianness_u32_bytes _ _ _ _ h0 h1 h2 h3
    have k2 := switch_endianness_u32_bytes _ _ _ _ h3 h2 h1 h0
    rw [← hx2] at k1 k2
    rw [k1, k2]
  · have hy2 : y = y % 256 + 256 * (y / 256) := by omega
    have h0 : y % 256 < 256 := Nat.mod_lt _ (by norm_num)
    have h1 : y / 256 < 256 := by norm_num at hy; omega
    have k1 := switch_endianness_u16_bytes _ _ h0 h1
    have k2 := switch_endianness_u16_bytes _ _ h1 h0
    rw [← hy2] at k1 k2
    rw [k1, k2]

/-- C34 at `0x12345678` and `0x1234`. -/
theorem switch_endianness_involution_witness :
    (0x12345678 < 2 ^ 32 ∧ 0x1234 < 2 ^ 16) ∧
    switch_endianness_u32 (switch_endianness_u32 0x12345678) = 0x12345678 ∧
    switch_endianness_u16 (switch_endianness_u16 0x1234) = 0x1234 :=
  ⟨⟨by decide, by decide⟩, switch_endianness_involution 0x12345678 0x1234 (by decide) (by decide)⟩

theorem clamp_mem (x : ℚ) : 0 ≤ Midi.clamp x ∧ Midi.clamp x ≤ 1 := by
  unfold Midi.clamp
  split_ifs with h1 h2
  · exact ⟨le_refl _, zero_le_one⟩
  · exact ⟨zero_le_one, le_refl _⟩
  · exact ⟨not_lt.mp h1, not_lt.mp h2⟩

theorem clamp_cases (x : ℚ) :
    (x < 0 → Midi.clamp x = 0) ∧ (1 < x → Midi.clamp x = 1) ∧
    (0 ≤ x → x ≤ 1 → Midi.clamp x = x) := by
  unfold Midi.clamp
  refine ⟨fun h => by simp [h], fun h => ?_, fun h0 h1 => ?_⟩
  · have h0 : ¬ x < 0 := not_lt.mpr (le_of_lt (lt_trans zero_lt_one h))
    simp [h0, h]
  · simp [not_lt.mpr h0, not_lt.mpr h1]

/-- C35: `Color::clamp` moves every component into [0, 1].  Over rational
components, after `clamp()` each of `r`, `g`, `b` is 0 if it was below 0, 1 if
it was above 1 and unchanged otherwise, so it lies in [0, 1]; `clamped()`
returns that clamped color and leaves the receiver unchanged. -/
theorem color_clamp_spec (c : Color) :
    ((c.r < 0 → c.clamp.r = 0) ∧ (1 < c.r → c.clamp.r = 1) ∧
      (0 ≤ c.r → c.r ≤ 1 → c.clamp.r = c.r)) ∧
    ((c.g < 0 → c.clamp.g = 0) ∧ (1 < c.g → c.clamp.g = 1) ∧
      (0 ≤ c.g → c.g ≤ 1 → c.clamp.g = c.g)) ∧
    ((c.b < 0 → c.clamp.b = 0) ∧ (1 < c.b → c.clamp.b = 1) ∧
      (0 ≤ c.b → c.b ≤ 1 → c.clamp.b = c.b)) ∧
    (0 ≤ c.clamp.r ∧ c.clamp.r ≤ 1) ∧ (0 ≤ c.clamp.g ∧ c.clamp.g ≤ 1) ∧
    (0 ≤ c.clamp.b ∧ c.clamp.b ≤ 1) ∧
    c.clamped.1 = c ∧ c.clamped.2 = c.clamp :=
  ⟨clamp_cases c.r, clamp_cases c.g, clamp_cases c.b, clamp_mem c.r, clamp_mem c.g,
    clamp_mem c.b, rfl, rfl⟩

/-- C35 on the color (-1/2, 3/2, 1/4): it is clamped to (0, 1, 1/4). -/
theorem color_clamp_spec_witness :
    (Color.clamp ⟨-1 / 2, 3 / 2, 1 / 4⟩).r = 0 ∧ (Color.clamp ⟨-1 / 2, 3 / 2, 1 / 4⟩).g = 1 ∧
    (Color.clamp ⟨-1 / 2, 3 / 2, 1 / 4⟩).b = 1 / 4 :=
  have h := color_clamp_spec ⟨-1 / 2, 3 / 2, 1 / 4⟩
  ⟨h.1.1 (by norm_num), h.2.1.2.1 (by norm_num), h.2.2.1.2.2 (by norm_num) (by norm_num)⟩

end Midi
